import Mathlib

/-!
Verification development for the cgpbot test-generation core: a shallow
embedding of `testgen/scripts/gcg_parser.py` (GCG replay engine, board model,
coordinate codec, CGP serialization) and `testgen/scripts/match_game.py`
(similarity scorer and match search), together with theorems checking the
design document's claims against the embedded code.

Modelling conventions:
* Python `int` is `Int`; scores, player indices and coordinates are `Int`.
* Python lists are `List`; indexing models CPython semantics: a negative
  index wraps once (`l[-k]` is `l[len l - k]`), an index out of range raises
  `IndexError`.  A raised exception is `none` of an `Option` result, and it
  propagates through every caller that does not catch it.
* Python strings are `String`, manipulated through their character lists so
  that everything reduces in the kernel.  `str.strip`, `str.split`,
  `str.split(None, k)`, `int(...)` and `str.lstrip("+")` are modelled
  character-for-character after CPython's documented behaviour.
* Python `set` objects are duplicate-free lists: `add` inserts only when the
  element is absent, `&` and `|` are filter/append, `len` is list length.
* Python `dict` objects are functions to `Option`, updated pointwise
  (later assignments overwrite earlier ones).
* `float` arithmetic of the similarity scorer is embedded in `ℚ`.
-/

namespace Cgpbot

/-! ## Python string and list primitives -/

/-- Characters counted as whitespace by `str.strip` / `str.split`. -/
def isWs (c : Char) : Bool := c.isWhitespace

/-- Strip leading and trailing whitespace from a character list. -/
def stripChars (cs : List Char) : List Char :=
  ((cs.dropWhile isWs).reverse.dropWhile isWs).reverse

/-- Python `s.strip()`. -/
def pyStrip (s : String) : String := ⟨stripChars s.data⟩

/-- Python `s.startswith(pre)`. -/
def pyStarts (s pre : String) : Bool := pre.data.isPrefixOf s.data

/-- Python `s.endswith(suf)`. -/
def pyEnds (s suf : String) : Bool := suf.data.isSuffixOf s.data

/-- Tokenizer behind `str.split()` (no separator): maximal runs of
non-whitespace characters, with `acc` the reversed current token. -/
def tokensAcc : List Char → List Char → List (List Char)
  | [], acc => if acc.isEmpty then [] else [acc.reverse]
  | c :: cs, acc =>
    if isWs c then
      if acc.isEmpty then tokensAcc cs [] else acc.reverse :: tokensAcc cs []
    else tokensAcc cs (c :: acc)

/-- Python `s.split()` — split on whitespace runs, no empty tokens. -/
def pySplit (s : String) : List String := (tokensAcc s.data []).map fun l => ⟨l⟩

/-- Python `s.split(None, 1)` on character lists: first whitespace-separated
token, then the remainder (leading whitespace of the remainder removed,
trailing whitespace kept). -/
def splitOnceChars (cs : List Char) : List (List Char) :=
  let cs1 := cs.dropWhile isWs
  match cs1 with
  | [] => []
  | _ =>
    let tok := cs1.takeWhile fun c => !isWs c
    let rest := (cs1.dropWhile fun c => !isWs c).dropWhile isWs
    if rest.isEmpty then [tok] else [tok, rest]

/-- Python `s.split(None, 1)`. -/
def pySplitOnce (s : String) : List String := (splitOnceChars s.data).map fun l => ⟨l⟩

/-- Python `s.split(None, 2)`. -/
def pySplit2 (s : String) : List String :=
  match splitOnceChars s.data with
  | [] => []
  | [t] => [(⟨t⟩ : String)]
  | t :: r :: _ => (⟨t⟩ : String) :: (splitOnceChars r).map fun l => (⟨l⟩ : String)

/-- CPython list read `l[i]`: negative indices wrap once, out-of-range
raises `IndexError` (`none`). -/
def pyGetI (l : List α) (i : Int) : Option α :=
  if 0 ≤ i then l.get? i.toNat
  else if (-i).toNat ≤ l.length then l.get? (l.length - (-i).toNat)
  else none

/-- CPython list assignment `l[i] = v`: negative indices wrap once,
out-of-range raises `IndexError` (`none`). -/
def pySetI (l : List α) (i : Int) (v : α) : Option (List α) :=
  if 0 ≤ i then
    if i.toNat < l.length then some (l.set i.toNat v) else none
  else if (-i).toNat ≤ l.length then some (l.set (l.length - (-i).toNat) v)
  else none

/-- Numeric value of a digit run. -/
def digitsVal (ds : List Char) : ℕ := ds.foldl (fun a c => a * 10 + (c.toNat - 48)) 0

/-- Python `int(s)` for a decimal literal: surrounding whitespace allowed,
one optional sign, then a nonempty digit run; anything else raises
`ValueError` (`none`). -/
def pyInt (s : String) : Option Int :=
  match stripChars s.data with
  | [] => none
  | c :: rest =>
    if c = '-' then
      if !rest.isEmpty && rest.all Char.isDigit then some (-(digitsVal rest : Int)) else none
    else if c = '+' then
      if !rest.isEmpty && rest.all Char.isDigit then some ((digitsVal rest : Int)) else none
    else if (c :: rest).all Char.isDigit then some ((digitsVal (c :: rest) : Int))
    else none

/-- Python `s.lstrip("+")`. -/
def pyDropPlus (s : String) : String := ⟨s.data.dropWhile (· = '+')⟩

/-- Python dict assignment `d[k] = v` for a `str → int` dict. -/
def dictSet (d : String → Option Int) (k : String) (v : Int) : String → Option Int :=
  fun x => if x = k then some v else d x

/-! ## gcg_parser.py — data types -/

/-- `Cell` dataclass: `letter` is `""` when unoccupied, otherwise the stored
character as a one-character string (uppercase = regular tile, lowercase =
blank playing that letter); `is_blank` marks blank-derived letters. -/
structure Cell where
  letter : String := ""
  is_blank : Bool := false
deriving DecidableEq, Repr

/-- The `Cell()` default value. -/
def emptyCell : Cell := {}

/-- `GameState` dataclass of gcg_parser.py. -/
structure GameState where
  board : List (List Cell)
  racks : List String
  scores : List Int
  turn : Int
  on_turn : Int
  players : List String
  lexicon : String
  game_id : String
deriving DecidableEq, Repr

/-- The default `GameState()`: empty 15×15 board, empty racks, zero scores. -/
def initGS : GameState where
  board := List.replicate 15 (List.replicate 15 emptyCell)
  racks := [("" : String), ("" : String)]
  scores := [0, 0]
  turn := 0
  on_turn := 0
  players := [("Player1" : String), ("Player2" : String)]
  lexicon := ""
  game_id := ""

/-- `COLS = "ABCDEFGHIJKLMNO"`. -/
def COLS : String := "ABCDEFGHIJKLMNO"

/-! ## gcg_parser.py — CGP serialization (`GameState.to_cgp`) -/

/-- One iteration of the row-serialization loop of `to_cgp`: accumulate the
row string and the pending empty-run length. -/
def cgpRowStep (p : String × ℕ) (cell : Cell) : String × ℕ :=
  if cell.letter = ("") then (p.1, p.2 + 1)
  else (p.1 ++ (if p.2 ≠ 0 then toString p.2 else ("")) ++ cell.letter, 0)

/-- Serialize one board row (`for c in range(15)` plus the trailing-run
flush); raises `IndexError` when the row has fewer than 15 cells. -/
def cgpRow (row : List Cell) : Option String := do
  let p ← (List.range 15).foldlM (fun (p : String × ℕ) (c : ℕ) => do
    let cell ← pyGetI row (c : Int)
    pure (cgpRowStep p cell)) (("" : String), 0)
  pure (p.1 ++ (if p.2 ≠ 0 then toString p.2 else ("")))

/-- `GameState.to_cgp(rack, lexicon)`.  `none` arguments are Python `None`
defaults; a `none` result is a raised exception. -/
def to_cgp (gs : GameState) (rack : Option String := none)
    (lexicon : Option String := none) : Option String := do
  let rows ← (List.range 15).foldlM (fun (acc : List String) (r : ℕ) => do
    let row ← pyGetI gs.board (r : Int)
    let s ← cgpRow row
    pure (acc ++ [s])) []
  let board_str := String.intercalate ("/") rows
  let rack_str ← match rack with
    | some rk => pure rk
    | none => pyGetI gs.racks gs.on_turn
  let lexParam := lexicon.getD ("")
  let lex := if lexParam ≠ ("") then lexParam
    else if gs.lexicon ≠ ("") then gs.lexicon else ("NWL23")
  match gs.scores with
  | [s0, s1] =>
    pure (board_str ++ (" ") ++ rack_str ++ ("/ ") ++ toString s0 ++ (" ") ++
      toString s1 ++ (" lex ") ++ lex ++ (";"))
  | _ => none

/-! ## gcg_parser.py — coordinate codec (`parse_coord`) -/

/-- Character class `[A-O]` of the coordinate regexes. -/
def isColL (c : Char) : Bool := 65 ≤ c.toNat && c.toNat ≤ 79

/-- `COLS.index(ch)`. -/
def colIdx (c : Char) : ℕ := COLS.data.indexOf c

/-- `parse_coord(coord)`: uppercase the token, then try
`^(\d+)([A-O]+)$` (horizontal) and `^([A-O]+)(\d+)$` (vertical); only the
first letter of the letter group is used.  Returns 0-indexed
`(row, col, horizontal)`; `none` is the raised `ValueError`. -/
def parse_coord (coord : String) : Option (Int × Int × Bool) :=
  let cs := coord.data.map Char.toUpper
  let ds := cs.takeWhile Char.isDigit
  let ls := cs.dropWhile Char.isDigit
  if !ds.isEmpty && !ls.isEmpty && ls.all isColL then
    match ls with
    | l0 :: _ => some ((digitsVal ds : Int) - 1, (colIdx l0 : Int), true)
    | [] => none
  else
    let ls2 := cs.takeWhile isColL
    let ds2 := cs.dropWhile isColL
    if !ls2.isEmpty && !ds2.isEmpty && ds2.all Char.isDigit then
      match ls2 with
      | l0 :: _ => some (((digitsVal ds2 : Int) - 1), (colIdx l0 : Int), false)
      | [] => none
    else none

/-! ## gcg_parser.py — board model (`place_word`, `remove_word`) -/

/-- `board[r][c] = v` on a list-of-lists board. -/
def boardSet (b : List (List Cell)) (r c : Int) (v : Cell) : Option (List (List Cell)) :=
  match pyGetI b r with
  | none => none
  | some row =>
    match pySetI row c v with
    | none => none
    | some row2 => pySetI b r row2

/-- `board[r][c]` read access (used only by the verification layer). -/
def boardGet (b : List (List Cell)) (r c : Int) : Option Cell :=
  match pyGetI b r with
  | none => none
  | some row => pyGetI row c

/-- Loop body of `place_word`: walk the characters, `.` skips, otherwise
write `Cell(letter=ch, is_blank=ch.islower())`. -/
def placeAux : List (List Cell) → List Char → Int → Int → Bool → Option (List (List Cell))
  | b, [], _, _, _ => some b
  | b, ch :: rest, r, c, hor =>
    let r2 := if hor then r else r + 1
    let c2 := if hor then c + 1 else c
    if ch ≠ '.' then
      match boardSet b r c ⟨String.singleton ch, ch.isLower⟩ with
      | none => none
      | some b2 => placeAux b2 rest r2 c2 hor
    else placeAux b rest r2 c2 hor

/-- `place_word(board, word, row, col, horizontal)`. -/
def place_word (b : List (List Cell)) (word : String) (row col : Int) (hor : Bool) :
    Option (List (List Cell)) :=
  placeAux b word.data row col hor

/-- Loop body of `remove_word`: same walk, clearing cells to `Cell()`. -/
def removeAux : List (List Cell) → List Char → Int → Int → Bool → Option (List (List Cell))
  | b, [], _, _, _ => some b
  | b, ch :: rest, r, c, hor =>
    let r2 := if hor then r else r + 1
    let c2 := if hor then c + 1 else c
    if ch ≠ '.' then
      match boardSet b r c emptyCell with
      | none => none
      | some b2 => removeAux b2 rest r2 c2 hor
    else removeAux b rest r2 c2 hor

/-- `remove_word(board, word, row, col, horizontal)`. -/
def remove_word (b : List (List Cell)) (word : String) (row col : Int) (hor : Bool) :
    Option (List (List Cell)) :=
  removeAux b word.data row col hor

/-! ## gcg_parser.py — replay engine (`parse_gcg`) -/

/-- The mutable state carried through the replay loop of `parse_gcg`:
the working `GameState`, the nickname→player-index dict, the list of
appended snapshots, and the `pending_phony` slot. -/
structure Reps where
  state : GameState
  nicknames : String → Option Int
  states : List GameState
  pending : Option (Int × Int × Bool × String)

/-- The loop state before any line is processed: default `GameState`, empty
nickname dict, `states = [state.copy()]`, no pending phony. -/
def initReps : Reps where
  state := initGS
  nicknames := fun _ => none
  states := [initGS]
  pending := none

/-- `coord == "--"` branch of the move dispatch (phony withdrawal):
re-parse the total from `rest[3]` falling back to the carried score, revert
the acting player's score, remove the pending word from the board if one is
recorded, clear the pending slot, leave `on_turn` alone, append a snapshot. -/
def withdrawalMove (rs : Reps) (s0 : GameState) (pidx : Int) (score_str : String) :
    Option Reps :=
  match (match pyInt score_str with
         | some t => some t
         | none => pyGetI s0.scores pidx) with
  | none => none
  | some tW =>
    match pySetI s0.scores pidx tW with
    | none => none
    | some scores2 =>
      let s1 := { s0 with scores := scores2 }
      match rs.pending with
      | some (pr, pc, ph, pw) =>
        match remove_word s1.board pw pr pc ph with
        | none => none
        | some b2 =>
          let s2 := { s1 with board := b2 }
          some { rs with state := s2, pending := none, states := rs.states ++ [s2] }
      | none =>
        some { rs with state := s1, states := rs.states ++ [s1] }

/-- Exchange branch (`word` is `-TILES`): set score, flip `on_turn`,
append a snapshot; the pending slot was already cleared. -/
def exchangeMove (rs : Reps) (s0 : GameState) (pidx : Int) (total : Int) : Option Reps :=
  match pySetI s0.scores pidx total with
  | none => none
  | some scores2 =>
    let s1 := { s0 with scores := scores2, on_turn := 1 - pidx }
    some { rs with state := s1, pending := none, states := rs.states ++ [s1] }

/-- Special-event branch (challenge bonus, time penalty, …): set score only,
append a snapshot. -/
def eventMove (rs : Reps) (s0 : GameState) (pidx : Int) (total : Int) : Option Reps :=
  match pySetI s0.scores pidx total with
  | none => none
  | some scores2 =>
    let s1 := { s0 with scores := scores2 }
    some { rs with state := s1, pending := none, states := rs.states ++ [s1] }

/-- End-of-game rack adjustment branch (`word` is parenthesized): set score
only, append a snapshot. -/
def adjustMove (rs : Reps) (s0 : GameState) (pidx : Int) (total : Int) : Option Reps :=
  match pySetI s0.scores pidx total with
  | none => none
  | some scores2 =>
    let s1 := { s0 with scores := scores2 }
    some { rs with state := s1, pending := none, states := rs.states ++ [s1] }

/-- Pass branch (coordinate fails to parse): set score, flip `on_turn`,
append a snapshot. -/
def passMove (rs : Reps) (s0 : GameState) (pidx : Int) (total : Int) : Option Reps :=
  match pySetI s0.scores pidx total with
  | none => none
  | some scores2 =>
    let s1 := { s0 with scores := scores2, on_turn := 1 - pidx }
    some { rs with state := s1, pending := none, states := rs.states ++ [s1] }

/-- Regular-placement branch: place the word, set score, remember the
placement in the pending slot, flip `on_turn`, bump `turn`, append. -/
def placeMove (rs : Reps) (s0 : GameState) (pidx : Int) (total : Int)
    (r c : Int) (hor : Bool) (word : String) : Option Reps :=
  match place_word s0.board word r c hor with
  | none => none
  | some b2 =>
    match pySetI s0.scores pidx total with
    | none => none
    | some scores2 =>
      let s1 := { s0 with
        board := b2
        scores := scores2
        on_turn := 1 - pidx
        turn := s0.turn + 1 }
      some { rs with
        state := s1
        pending := some (r, c, hor, word)
        states := rs.states ++ [s1] }

/-- Dispatch on a move line after the `>name:` fields have been split:
`rest` is `[RACK, COORD, WORD, SCORE, TOTAL?]`.  Mirrors the move-handling
part of `parse_gcg` (rack update, defensive numeric parsing, then the
withdrawal / exchange / event / adjustment / pass / placement branches in
source order). -/
def stepMove (rs : Reps) (pname : String) (rest : List String) : Option Reps :=
  match rest with
  | rack :: coord :: word :: score_str :: tl =>
    let total_str := tl.headD ("0")
    let pidx : Int := (rs.nicknames pname).getD rs.state.on_turn
    match pySetI rs.state.racks pidx rack with
    | none => none
    | some racks2 =>
      let s0 := { rs.state with racks := racks2 }
      let totalTry : Option Int :=
        match pyInt (pyDropPlus score_str), pyInt total_str with
        | some _, some t => some t
        | _, _ => none
      match (match totalTry with
             | some t => some t
             | none => pyGetI s0.scores pidx) with
      | none => none
      | some total =>
        if coord = ("--") then
          withdrawalMove rs s0 pidx score_str
        else if pyStarts word ("-") && 2 ≤ word.length then
          exchangeMove rs s0 pidx total
        else
          match (if coord = ("(challenge)") ∨ coord = ("(time)") then some true
                 else (coord.data.head?).map fun c0 => !c0.isAlphanum) with
          | none => none
          | some ev =>
            if ev then eventMove rs s0 pidx total
            else if pyStarts word ("(") && pyEnds word (")") then
              adjustMove rs s0 pidx total
            else
              match parse_coord coord with
              | none => passMove rs s0 pidx total
              | some (r, c, hor) => placeMove rs s0 pidx total r c hor word
  | _ => some rs

/-- Process one line of the GCG log: strip it, handle the four header tags,
skip anything else that is not a move line, and otherwise split the
`>name: ...` fields and dispatch to `stepMove`.  `none` is an uncaught
exception (missing `:` on a move line, malformed `#lexicon` header, or an
out-of-range board write). -/
def stepLine (rs : Reps) (raw : String) : Option Reps :=
  let line := pyStrip raw
  if pyStarts line ("#lexicon") then
    match (pySplitOnce line).get? 1 with
    | none => none
    | some arg =>
      some { rs with state := { rs.state with lexicon := pyStrip arg } }
  else if pyStarts line ("#id") then
    let parts := pySplit line
    if 3 ≤ parts.length then
      match parts.get? 2 with
      | none => none
      | some g => some { rs with state := { rs.state with game_id := g } }
    else some rs
  else if pyStarts line ("#player1") then
    let parts := pySplit2 line
    let nickname := (parts.get? 1).getD ("Player1")
    let fullname := ((parts.get? 2).map pyStrip).getD nickname
    match pySetI rs.state.players 0 fullname with
    | none => none
    | some players2 =>
      some { rs with
        state := { rs.state with players := players2 }
        nicknames := dictSet (dictSet rs.nicknames nickname 0) fullname 0 }
  else if pyStarts line ("#player2") then
    let parts := pySplit2 line
    let nickname := (parts.get? 1).getD ("Player2")
    let fullname := ((parts.get? 2).map pyStrip).getD nickname
    match pySetI rs.state.players 1 fullname with
    | none => none
    | some players2 =>
      some { rs with
        state := { rs.state with players := players2 }
        nicknames := dictSet (dictSet rs.nicknames nickname 1) fullname 1 }
  else if !pyStarts line (">") then some rs
  else
    let l1 : String := ⟨line.data.drop 1⟩
    match l1.data.findIdx? (· = ':') with
    | none => none
    | some k =>
      let pname := pyStrip ⟨l1.data.take k⟩
      let rest := pySplit (pyStrip ⟨l1.data.drop (k + 1)⟩)
      if rest.length < 4 then some rs else stepMove rs pname rest

/-- The lines of a GCG text: `gcg_text.strip().split("\n")`. -/
def linesOf (t : String) : List String :=
  ((pyStrip t).data.splitOn '\n').map fun l => (⟨l⟩ : String)

/-- `parse_gcg(gcg_text)`: fold the per-line transition over the log from
the initial state and return the snapshot list; `none` is an uncaught
exception escaping the whole replay. -/
def parse_gcg (t : String) : Option (List GameState) :=
  ((linesOf t).foldlM stepLine initReps).map Reps.states

/-! ## match_game.py — board-record decoding

Python `set` objects are modelled as duplicate-free lists (`setAdd` inserts
only absent elements); `len`, `&` and `|` become `length`, `filter` and
append-new. -/

/-- `set.add` for the occupancy set. -/
def setAdd (l : List (ℕ × ℕ)) (p : ℕ × ℕ) : List (ℕ × ℕ) :=
  if p ∈ l then l else l ++ [p]

/-- `len(a & b)` on set-as-list values. -/
def interLen (a b : List (ℕ × ℕ)) : ℕ := (a.filter (· ∈ b)).length

/-- `len(a | b)` on set-as-list values. -/
def unionLen (a b : List (ℕ × ℕ)) : ℕ := (a ++ b.filter (· ∉ a)).length

/-- Per-character step of the occupancy decoder: digits advance the column
counter by their own value, any other character marks `(r, c)` occupied and
advances by one. -/
def occStep (r : ℕ) (p : List (ℕ × ℕ) × ℕ) (ch : Char) : List (ℕ × ℕ) × ℕ :=
  if ch.isDigit then (p.1, p.2 + (ch.toNat - 48)) else (setAdd p.1 (r, p.2), p.2 + 1)

/-- `board_occupancy(cgp)`: take the first whitespace-separated field, split
it on `/`, accumulate occupied cells row by row.  `none` is the
`IndexError` raised by `cgp.split()[0]` on a blank string. -/
def board_occupancy (cgp : String) : Option (List (ℕ × ℕ)) :=
  match pySplit cgp with
  | [] => none
  | board_str :: _ =>
    let rows := board_str.data.splitOn '/'
    some (rows.enum.foldl (fun acc rrow => (rrow.2.foldl (occStep rrow.1) (acc, 0)).1) [])

/-- Per-character step of the letter decoder: like `occStep` but recording
the upper-cased letter in a dict. -/
def letStep (r : ℕ) (p : ((ℕ × ℕ) → Option Char) × ℕ) (ch : Char) :
    ((ℕ × ℕ) → Option Char) × ℕ :=
  if ch.isDigit then (p.1, p.2 + (ch.toNat - 48))
  else (fun q => if q = (r, p.2) then some ch.toUpper else p.1 q, p.2 + 1)

/-- `board_letters(cgp)`: dict from occupied cell to upper-cased letter. -/
def board_letters (cgp : String) : Option ((ℕ × ℕ) → Option Char) :=
  match pySplit cgp with
  | [] => none
  | board_str :: _ =>
    let rows := board_str.data.splitOn '/'
    some (rows.enum.foldl (fun acc rrow => (rrow.2.foldl (letStep rrow.1) (acc, 0)).1)
      (fun _ => none))

/-! ## match_game.py — similarity scorer -/

/-- `occupancy_similarity(cgp_a, cgp_b)`: Jaccard ratio of occupied cells,
`1.0` when both boards are empty, guarded against division by zero. -/
def occupancy_similarity (cgp_a cgp_b : String) : Option ℚ := do
  let occ_a ← board_occupancy cgp_a
  let occ_b ← board_occupancy cgp_b
  if occ_a.isEmpty && occ_b.isEmpty then pure 1
  else
    let i := interLen occ_a occ_b
    let u := unionLen occ_a occ_b
    pure (if 0 < u then (i : ℚ) / (u : ℚ) else 0)

/-- `letter_accuracy(cgp_ocr, cgp_truth)`: over the occupied-cell
intersection, the fraction of cells whose upper-cased letters agree. -/
def letter_accuracy (cgp_ocr cgp_truth : String) : Option ℚ := do
  let occ_a ← board_occupancy cgp_ocr
  let occ_b ← board_occupancy cgp_truth
  let common := occ_a.filter (· ∈ occ_b)
  if common.isEmpty then pure 0
  else do
    let la ← board_letters cgp_ocr
    let lb ← board_letters cgp_truth
    let nMatch := (common.filter fun pos => la pos = lb pos).length
    pure ((nMatch : ℚ) / (common.length : ℚ))

/-- `scores_from_cgp(cgp)`: the regex search `/\s*(\d+)\s+(\d+)` — at the
first `/` followed by optional whitespace, a digit run, mandatory
whitespace and a second digit run, return the two numbers. -/
def scoresMatchAt (cs : List Char) : Option (Int × Int) :=
  let cs1 := cs.dropWhile isWs
  let d1 := cs1.takeWhile Char.isDigit
  if d1.isEmpty then none
  else
    let cs2 := cs1.drop d1.length
    let w := cs2.takeWhile isWs
    if w.isEmpty then none
    else
      let cs3 := cs2.drop w.length
      let d2 := cs3.takeWhile Char.isDigit
      if d2.isEmpty then none
      else some ((digitsVal d1 : Int), (digitsVal d2 : Int))

/-- Left-to-right scan of the regex search of `scores_from_cgp`. -/
def scoresScan : List Char → Option (Int × Int)
  | [] => none
  | ch :: rest =>
    if ch = '/' then
      match scoresMatchAt rest with
      | some p => some p
      | none => scoresScan rest
    else scoresScan rest

/-- `scores_from_cgp(cgp)`; `none` is the `(None, None)` result. -/
def scores_from_cgp (cgp : String) : Option (Int × Int) := scoresScan cgp.data

/-! ## match_game.py — matching logic (`find_matching_turn`, `match_screenshot`) -/

/-- The score-proximity bonus computed inside the loop of
`find_matching_turn` when OCR scores are supplied: both player-order
pairings are tried, and the smaller total difference earns
`0.1 * (1 - diff / (tolerance * 10))` when within tolerance. -/
def scoreBonusOf (truth_cgp : String) (ocr_scores : Option (Int × Int))
    (tolerance : ℚ) : ℚ :=
  match ocr_scores with
  | none => 0
  | some (o0, o1) =>
    match scores_from_cgp truth_cgp with
    | none => 0
    | some (t0, t1) =>
      let diff_a := (t0 - o0).natAbs + (t1 - o1).natAbs
      let diff_b := (t0 - o1).natAbs + (t1 - o0).natAbs
      let diff : ℚ := (min diff_a diff_b : ℕ)
      if diff ≤ tolerance then (0.1 : ℚ) * (1 - diff / (tolerance * 10)) else 0

/-- Loop body of `find_matching_turn` for one `(index, state)` pair:
serialize the truth board, gate on occupancy similarity `≥ 0.90`, then
compute the combined score and keep the better candidate. -/
def scoreState (ocr_cgp : String) (ocr_scores : Option (Int × Int)) (tolerance : ℚ)
    (best : ℕ × ℚ × Option GameState) (ist : ℕ × GameState) :
    Option (ℕ × ℚ × Option GameState) := do
  let truth_cgp ← to_cgp ist.2
  let occ_sim ← occupancy_similarity ocr_cgp truth_cgp
  if occ_sim < (0.90 : ℚ) then pure best
  else do
    let letter_acc ← letter_accuracy ocr_cgp truth_cgp
    let score_bonus := scoreBonusOf truth_cgp ocr_scores tolerance
    let combined := occ_sim * (0.6 : ℚ) + letter_acc * (0.3 : ℚ) + score_bonus
    pure (if best.2.1 < combined then (ist.1, combined, some ist.2) else best)

/-- `find_matching_turn(ocr_cgp, states, ocr_scores, tolerance)`: fold the
loop body over `enumerate(states[1:], 1)` starting from `(0, 0.0, None)`. -/
def find_matching_turn (ocr_cgp : String) (states : List GameState)
    (ocr_scores : Option (Int × Int) := none) (tolerance : ℚ := 5) :
    Option (ℕ × ℚ × Option GameState) :=
  (List.enumFrom 1 (states.drop 1)).foldlM (scoreState ocr_cgp ocr_scores tolerance)
    (0, 0, none)

/-- The dict returned by `match_screenshot` on success. -/
structure MatchResult where
  game_id : String
  turn : ℕ
  golden_cgp : Option String
  similarity : ℚ
  players : List String
deriving Repr

/-- Candidate loop of `match_screenshot`: for each `(game_id, gcg_text)`
pair, replay the log (a parse failure skips the candidate), score every
turn, track the single best match, and stop as soon as a similarity
`≥ 0.98` is found.  The outer `none` is an exception escaping the loop
(the similarity scorer is outside the `try` block). -/
def matchLoop (ocr_cgp : String) (ocr_scores : Option (Int × Int)) :
    List (String × String) → Option MatchResult × ℚ → Option (Option MatchResult × ℚ)
  | [], best => some best
  | (gid, txt) :: rest, (bm, bs) =>
    match parse_gcg txt with
    | none => matchLoop ocr_cgp ocr_scores rest (bm, bs)
    | some states =>
      match find_matching_turn ocr_cgp states ocr_scores with
      | none => none
      | some (ti, sim, stOpt) =>
        if bs < sim then
          match (match stOpt with
                 | none => some (none : Option String)
                 | some st => (to_cgp st).map some) with
          | none => none
          | some golden =>
            let bm2 : Option MatchResult :=
              some ⟨gid, ti, golden, sim, (stOpt.map GameState.players).getD []⟩
            if (0.98 : ℚ) ≤ sim then some (bm2, sim)
            else matchLoop ocr_cgp ocr_scores rest (bm2, sim)
        else matchLoop ocr_cgp ocr_scores rest (bm, bs)

/-- `match_screenshot(ocr_cgp, player_names, ocr_scores, min_similarity)`
restricted to its in-memory core: the candidate `(game_id, gcg_text)`
pairs are supplied directly (fetching and caching them belongs to the
excluded network collaborator).  Returns `some (some result)` on a match,
`some none` for the explicit no-match outcome, `none` for an escaped
exception. -/
def match_screenshot (ocr_cgp : String) (candidates : List (String × String))
    (ocr_scores : Option (Int × Int) := none) (min_similarity : ℚ := 0.85) :
    Option (Option MatchResult) := do
  let best ← matchLoop ocr_cgp ocr_scores candidates (none, 0)
  pure (if best.1.isSome && decide (min_similarity ≤ best.2) then best.1 else none)

/-! ## Verification layer: reference semantics helpers

These definitions are not part of the embedded program; they give the
claims' language (occupied cells, board extent, walk positions) a precise
meaning against which the embedded code is judged. -/

/-- The set (as a duplicate-free row-major list) of occupied cells of a
board: the positions whose cell holds a letter. -/
def occupiedCells (b : List (List Cell)) : List (ℕ × ℕ) :=
  (b.enum.map fun rrow => rrow.2.enum.filterMap fun ccell =>
    if ccell.2.letter ≠ ("") then some (rrow.1, ccell.1) else none).flatten

/-- Equality of set-as-list values as sets. -/
def setEqB (a b : List (ℕ × ℕ)) : Bool := a.all (· ∈ b) && b.all (· ∈ a)

/-- A board with the fixed 15×15 extent. -/
def dims15 (b : List (List Cell)) : Prop :=
  b.length = 15 ∧ ∀ row ∈ b, row.length = 15

instance (b : List (List Cell)) : Decidable (dims15 b) := by
  unfold dims15; infer_instance

/-- The anchor and a word of the given length stay inside the 15×15 grid. -/
def fitsOnBoard (r c : Int) (hor : Bool) (n : ℕ) : Prop :=
  0 ≤ r ∧ 0 ≤ c ∧
    (if hor then r < 15 ∧ c + (n : Int) ≤ 15 else c < 15 ∧ r + (n : Int) ≤ 15)

instance (r c : Int) (hor : Bool) (n : ℕ) : Decidable (fitsOnBoard r c hor n) := by
  unfold fitsOnBoard; infer_instance

/-- The positions actually written by a `place_word`/`remove_word` walk:
the walk cells whose character is not the `.` skip marker. -/
def writeCells : List Char → Int → Int → Bool → List (Int × Int)
  | [], _, _, _ => []
  | ch :: rest, r, c, hor =>
    let tailCells := writeCells rest (if hor then r else r + 1) (if hor then c + 1 else c) hor
    if ch ≠ '.' then (r, c) :: tailCells else tailCells

/-! ## Claim C1 — serialization round-trip (encode then decode) -/

/-- A board whose only tile is an `A` at row 0, column 10: ten leading
empty cells make `to_cgp` emit the two-digit run `10`. -/
def cgpBugGS : GameState :=
  { initGS with
    board := (List.replicate 15 (List.replicate 15 emptyCell)).set 0
      ((List.replicate 15 emptyCell).set 10 ⟨("A"), false⟩) }

/-- C1: the claimed `to_cgp`/`board_occupancy` round-trip FAILS.  The
encoder writes the empty run `10` as the two characters `1` and `0`, but
the decoder adds digit characters one at a time (`c += int(ch)`), so the
tile actually at `(0, 10)` is decoded at `(0, 1)`: the decoded occupancy
is not set-equal to the original board's occupied cells.  This exhibits
the bug on a concrete board. -/
theorem c1_roundtrip_bug :
    occupiedCells cgpBugGS.board = [(0, 10)] ∧
    to_cgp cgpBugGS =
      some ("10A4/15/15/15/15/15/15/15/15/15/15/15/15/15/15 / 0 0 lex NWL23;") ∧
    board_occupancy
      ("10A4/15/15/15/15/15/15/15/15/15/15/15/15/15/15 / 0 0 lex NWL23;") =
      some [(0, 1)] ∧
    setEqB [(0, 1)] [(0, 10)] = false := by
  exact ⟨by decide, by decide, by decide, by decide⟩

/-! ## Claim C3 — coordinate codec bounds -/

/-- C3 counterexample: the codec ACCEPTS the token `16A` (digits then a
column letter, matching the horizontal pattern) and returns row 15, which
lies outside the fixed 15×15 board, refuting the claim that every accepted
anchor is in bounds. -/
theorem c3_counterexample :
    parse_coord ("16A") = some (15, 0, true) ∧ ¬((15 : Int) ≤ 14) :=
  ⟨by decide, by decide⟩

/-- Every column letter of the class `[A-O]` indexes into `COLS` below 15. -/
lemma colIdx_le_of_isColL (ch : Char) (h : isColL ch = true) : colIdx ch ≤ 14 := by
  have h1 : 65 ≤ ch.toNat ∧ ch.toNat ≤ 79 := by
    simpa [isColL, Bool.and_eq_true, decide_eq_true_eq] using h
  have hc : Char.ofNat ch.toNat = ch := Char.ofNat_toNat ch
  have hv : ch.toNat = 65 ∨ ch.toNat = 66 ∨ ch.toNat = 67 ∨ ch.toNat = 68 ∨
      ch.toNat = 69 ∨ ch.toNat = 70 ∨ ch.toNat = 71 ∨ ch.toNat = 72 ∨
      ch.toNat = 73 ∨ ch.toNat = 74 ∨ ch.toNat = 75 ∨ ch.toNat = 76 ∨
      ch.toNat = 77 ∨ ch.toNat = 78 ∨ ch.toNat = 79 := by omega
  rcases hv with h2 | h2 | h2 | h2 | h2 | h2 | h2 | h2 | h2 | h2 | h2 | h2 | h2 | h2 | h2 <;>
    (rw [← hc, h2]; decide)

/-- A maximal `takeWhile` run satisfies its predicate throughout. -/
lemma all_takeWhile (p : Char → Bool) : ∀ l : List Char, (l.takeWhile p).all p = true := by
  intro l
  induction l with
  | nil => rfl
  | cons a t ih => by_cases h : p a <;> simp [List.takeWhile, h, ih]

/-- C3 amended: for every token the codec accepts, the returned column is
always within `0..14`; the returned row is the token's numeric part minus
one, bounded by nothing but the token itself — so it lies within `0..14`
exactly when the numeric part is between 1 and 15.  (The original claim,
that every accepted token is in bounds, is refuted by
`c3_counterexample`.) -/
theorem c3_amended (coord : String) (r c : Int) (hor : Bool)
    (h : parse_coord coord = some (r, c, hor)) :
    0 ≤ c ∧ c ≤ 14 ∧
      (∃ ds : List Char, ds ≠ [] ∧ ds.all Char.isDigit = true ∧
        r = (digitsVal ds : Int) - 1) ∧
      (1 ≤ r + 1 ∧ r + 1 ≤ 15 → 0 ≤ r ∧ r ≤ 14) := by
  unfold parse_coord at h
  dsimp only at h
  split at h
  · rename_i hcond
    simp only [Bool.and_eq_true] at hcond
    split at h
    · rename_i l0 lt hls
      simp only [Option.some.injEq, Prod.mk.injEq] at h
      obtain ⟨hr, hcol, _⟩ := h
      have hl0 : isColL l0 = true := by
        have hall := hcond.2
        rw [hls] at hall
        exact (by simpa [List.all_cons, Bool.and_eq_true] using hall : _ ∧ _).1
      have hcb := colIdx_le_of_isColL l0 hl0
      refine ⟨?_, ?_, ?_, ?_⟩
      · rw [← hcol]; exact Int.natCast_nonneg _
      · rw [← hcol]; exact_mod_cast hcb
      · refine ⟨(coord.data.map Char.toUpper).takeWhile Char.isDigit, ?_,
          all_takeWhile _ _, hr.symm⟩
        intro hnil
        have := hcond.1.1
        rw [hnil] at this
        simp at this
      · intro hb; omega
    · exact absurd h (by simp)
  · split at h
    · rename_i hcond
      simp only [Bool.and_eq_true] at hcond
      split at h
      · rename_i l0 lt hls
        simp only [Option.some.injEq, Prod.mk.injEq] at h
        obtain ⟨hr, hcol, _⟩ := h
        have hl0 : isColL l0 = true := by
          have hall : ((coord.data.map Char.toUpper).takeWhile isColL).all isColL = true :=
            all_takeWhile _ _
          rw [hls] at hall
          exact (by simpa [List.all_cons, Bool.and_eq_true] using hall : _ ∧ _).1
        have hcb := colIdx_le_of_isColL l0 hl0
        refine ⟨?_, ?_, ?_, ?_⟩
        · rw [← hcol]; exact Int.natCast_nonneg _
        · rw [← hcol]; exact_mod_cast hcb
        · refine ⟨(coord.data.map Char.toUpper).dropWhile isColL, ?_, hcond.2, hr.symm⟩
          intro hnil
          have := hcond.1.2
          rw [hnil] at this
          simp at this
        · intro hb; omega
      · exact absurd h (by simp)
    · exact absurd h (by simp)

/-- Witness for `c3_amended` at the anchor `8H`. -/
theorem c3_amended_witness :
    parse_coord ("8H") = some (7, 7, true) ∧ 0 ≤ (7 : Int) ∧ (7 : Int) ≤ 14 :=
  ⟨by decide, (c3_amended ("8H") 7 7 true (by decide)).1,
    (c3_amended ("8H") 7 7 true (by decide)).2.1⟩

/-! ## Board model lemmas (for C4 and C6) -/

lemma pyGetI_nonneg (l : List α) (i : Int) (h : 0 ≤ i) : pyGetI l i = l.get? i.toNat := by
  simp [pyGetI, h]

lemma pySetI_nonneg (l : List α) (i : Int) (v : α) (h0 : 0 ≤ i) (hl : i.toNat < l.length) :
    pySetI l i v = some (l.set i.toNat v) := by
  simp [pySetI, h0, hl]

lemma pySetI_length (l l2 : List α) (i : Int) (v : α) (h : pySetI l i v = some l2) :
    l2.length = l.length := by
  unfold pySetI at h
  split at h
  · split at h
    · injection h with h; rw [← h]; simp
    · exact absurd h (by simp)
  · split at h
    · injection h with h; rw [← h]; simp
    · exact absurd h (by simp)

lemma dims15_row (b : List (List Cell)) (row : List Cell) (n : ℕ) (hd : dims15 b)
    (h : b.get? n = some row) : row.length = 15 :=
  hd.2 row (List.get?_mem h)

lemma get?_set_self (l : List α) (i : ℕ) (v : α) (h : i < l.length) :
    (l.set i v).get? i = some v := by
  simp [List.get?_eq_getElem?, List.getElem?_set_self', List.getElem?_eq_getElem h]

lemma get?_set_other (l : List α) (i j : ℕ) (v : α) (h : i ≠ j) :
    (l.set i v).get? j = l.get? j := by
  simp [List.get?_eq_getElem?, List.getElem?_set_ne h]

lemma boardSet_spec (b : List (List Cell)) (r c : Int) (v : Cell) (hd : dims15 b)
    (h0r : 0 ≤ r) (hr : r < 15) (h0c : 0 ≤ c) (hc : c < 15) :
    ∃ b2, boardSet b r c v = some b2 ∧ dims15 b2 ∧ boardGet b2 r c = some v ∧
      ∀ i j : ℕ, ¬((i : Int) = r ∧ (j : Int) = c) → boardGet b2 i j = boardGet b i j := by
  have hb15 : b.length = 15 := hd.1
  have hrn : r.toNat < b.length := by omega
  obtain ⟨row, hrow⟩ : ∃ row, b.get? r.toNat = some row := by
    rw [List.get?_eq_getElem?, List.getElem?_eq_getElem hrn]; exact ⟨_, rfl⟩
  have hrlen : row.length = 15 := dims15_row b row r.toNat hd hrow
  have hcn : c.toNat < row.length := by rw [hrlen]; omega
  refine ⟨b.set r.toNat (row.set c.toNat v), ?_, ?_, ?_, ?_⟩
  · unfold boardSet
    rw [pyGetI_nonneg _ _ h0r, hrow]
    dsimp only
    rw [pySetI_nonneg row c v h0c hcn]
    dsimp only
    exact pySetI_nonneg b r _ h0r hrn
  · constructor
    · simp [hd.1]
    · intro row2 hmem
      rcases List.mem_iff_get?.mp hmem with ⟨n, hn⟩
      by_cases hnr : n = r.toNat
      · rw [hnr, get?_set_self _ _ _ hrn] at hn
        injection hn with hn
        rw [← hn]
        simp [hrlen]
      · rw [get?_set_other _ _ _ _ (fun a => hnr a.symm)] at hn
        exact hd.2 row2 (List.get?_mem hn)
  · unfold boardGet
    rw [pyGetI_nonneg _ _ h0r, get?_set_self _ _ _ hrn]
    dsimp only
    rw [pyGetI_nonneg _ _ h0c, get?_set_self _ _ _ hcn]
  · intro i j hne
    unfold boardGet
    rw [pyGetI_nonneg _ _ (Int.natCast_nonneg i), pyGetI_nonneg _ _ (Int.natCast_nonneg i),
      Int.toNat_natCast]
    by_cases hir : i = r.toNat
    · have hjc : j ≠ c.toNat := fun hj => hne ⟨by omega, by omega⟩
      rw [hir, get?_set_self _ _ _ hrn, hrow]
      dsimp only
      rw [pyGetI_nonneg _ _ (Int.natCast_nonneg j), pyGetI_nonneg _ _ (Int.natCast_nonneg j),
        Int.toNat_natCast, get?_set_other _ _ _ _ (fun a => hjc a.symm)]
    · rw [get?_set_other _ _ _ _ (fun a => hir a.symm)]

/-- Positions recorded by `writeCells` stay on the walk line and within the
word's span. -/
lemma writeCells_mem : ∀ (w : List Char) (r c : Int) (hor : Bool) (p : Int × Int),
    p ∈ writeCells w r c hor →
    if hor then p.1 = r ∧ c ≤ p.2 ∧ p.2 < c + (w.length : Int)
    else p.2 = c ∧ r ≤ p.1 ∧ p.1 < r + (w.length : Int) := by
  intro w
  induction w with
  | nil => intro r c hor p hp; simp [writeCells] at hp
  | cons ch rest ih =>
    intro r c hor p hp
    unfold writeCells at hp
    have hp2 : p = (r, c) ∨
        p ∈ writeCells rest (if hor then r else r + 1) (if hor then c + 1 else c) hor := by
      by_cases hch : ch ≠ '.'
      · rw [if_pos hch] at hp
        exact List.mem_cons.mp hp
      · rw [if_neg hch] at hp
        exact Or.inr hp
    have hlen : ((ch :: rest).length : Int) = (rest.length : Int) + 1 := by
      rw [List.length_cons]; push_cast; ring
    rcases hp2 with hh | ht
    · subst hh
      cases hor
      · rw [if_neg (by simp)]
        refine ⟨rfl, le_refl _, ?_⟩
        rw [hlen]
        have : (0 : Int) ≤ (rest.length : Int) := Int.natCast_nonneg _
        omega
      · rw [if_pos rfl]
        refine ⟨rfl, le_refl _, ?_⟩
        rw [hlen]
        have : (0 : Int) ≤ (rest.length : Int) := Int.natCast_nonneg _
        omega
    · have hres := ih _ _ hor p ht
      cases hor
      · rw [if_neg (by simp)] at hres ⊢
        rw [if_neg (by simp), if_neg (by simp)] at hres
        obtain ⟨h1, h2, h3⟩ := hres
        rw [hlen]
        exact ⟨h1, by omega, by omega⟩
      · rw [if_pos rfl] at hres ⊢
        rw [if_pos rfl, if_pos rfl] at hres
        obtain ⟨h1, h2, h3⟩ := hres
        rw [hlen]
        exact ⟨h1, by omega, by omega⟩

lemma placeAux_spec : ∀ (w : List Char) (b : List (List Cell)) (r c : Int) (hor : Bool),
    dims15 b → fitsOnBoard r c hor w.length →
    ∃ b2, placeAux b w r c hor = some b2 ∧ dims15 b2 ∧
      ∀ i j : ℕ, ((i : Int), (j : Int)) ∉ writeCells w r c hor →
        boardGet b2 i j = boardGet b i j := by
  intro w
  induction w with
  | nil => exact fun b r c hor hd _ => ⟨b, rfl, hd, fun i j _ => rfl⟩
  | cons ch rest ih =>
    intro b r c hor hd hfit
    obtain ⟨h0r, h0c, hbound⟩ := hfit
    have hrc : r < 15 ∧ c < 15 := by
      split at hbound <;> [skip; skip] <;>
        · simp [List.length_cons] at hbound; omega
    have hfit2 : fitsOnBoard (if hor then r else r + 1) (if hor then c + 1 else c) hor
        rest.length := by
      unfold fitsOnBoard
      split at hbound <;> rename_i hh <;> simp [hh, List.length_cons] at hbound ⊢ <;> omega
    by_cases hch : ch ≠ '.'
    · obtain ⟨b1, hb1, hd1, _, hget1⟩ :=
        boardSet_spec b r c ⟨String.singleton ch, ch.isLower⟩ hd h0r hrc.1 h0c hrc.2
      obtain ⟨b2, hb2, hd2, hget2⟩ := ih b1 _ _ hor hd1 hfit2
      refine ⟨b2, ?_, hd2, ?_⟩
      · unfold placeAux
        rw [if_pos hch, hb1]
        exact hb2
      · intro i j hnotin
        unfold writeCells at hnotin
        rw [if_pos hch] at hnotin
        have hni : ((i : Int), (j : Int)) ∉
            writeCells rest (if hor then r else r + 1) (if hor then c + 1 else c) hor :=
          fun hmem => hnotin (List.mem_cons_of_mem _ hmem)
        have hne : ¬((i : Int) = r ∧ (j : Int) = c) := by
          intro ⟨hi, hj⟩
          exact hnotin (by rw [hi, hj]; exact List.mem_cons_self _ _)
        rw [hget2 i j hni, hget1 i j hne]
    · obtain ⟨b2, hb2, hd2, hget2⟩ := ih b _ _ hor hd hfit2
      refine ⟨b2, ?_, hd2, ?_⟩
      · unfold placeAux
        rw [if_neg hch]
        exact hb2
      · intro i j hnotin
        unfold writeCells at hnotin
        rw [if_neg hch] at hnotin
        exact hget2 i j hnotin

lemma removeAux_spec : ∀ (w : List Char) (b : List (List Cell)) (r c : Int) (hor : Bool),
    dims15 b → fitsOnBoard r c hor w.length →
    ∃ b2, removeAux b w r c hor = some b2 ∧ dims15 b2 ∧
      (∀ p ∈ writeCells w r c hor, boardGet b2 p.1 p.2 = some emptyCell) ∧
      ∀ i j : ℕ, ((i : Int), (j : Int)) ∉ writeCells w r c hor →
        boardGet b2 i j = boardGet b i j := by
  intro w
  induction w with
  | nil => exact fun b r c hor hd _ => ⟨b, rfl, hd, by simp [writeCells], fun i j _ => rfl⟩
  | cons ch rest ih =>
    intro b r c hor hd hfit
    obtain ⟨h0r, h0c, hbound⟩ := hfit
    have hrc : r < 15 ∧ c < 15 := by
      split at hbound <;> [skip; skip] <;>
        · simp [List.length_cons] at hbound; omega
    have hfit2 : fitsOnBoard (if hor then r else r + 1) (if hor then c + 1 else c) hor
        rest.length := by
      unfold fitsOnBoard
      split at hbound <;> rename_i hh <;> simp [hh, List.length_cons] at hbound ⊢ <;> omega
    by_cases hch : ch ≠ '.'
    · obtain ⟨b1, hb1, hd1, hv1, hget1⟩ :=
        boardSet_spec b r c emptyCell hd h0r hrc.1 h0c hrc.2
      obtain ⟨b2, hb2, hd2, hcl2, hget2⟩ := ih b1 _ _ hor hd1 hfit2
      have hrcnot : ((r.toNat : Int), (c.toNat : Int)) ∉
          writeCells rest (if hor then r else r + 1) (if hor then c + 1 else c) hor := by
        intro hmem
        have := writeCells_mem rest _ _ hor _ hmem
        split at this <;> rename_i hh <;> simp [hh] at this <;> omega
      refine ⟨b2, ?_, hd2, ?_, ?_⟩
      · unfold removeAux
        rw [if_pos hch, hb1]
        exact hb2
      · intro p hp
        unfold writeCells at hp
        rw [if_pos hch] at hp
        rcases List.mem_cons.mp hp with hphead | hptail
        · rw [hphead]
          have heq : boardGet b2 r.toNat c.toNat = boardGet b1 r.toNat c.toNat :=
            hget2 r.toNat c.toNat hrcnot
          have hrr : ((r.toNat : Int)) = r := by omega
          have hcc : ((c.toNat : Int)) = c := by omega
          rw [hrr, hcc] at heq
          rw [heq, hv1]
        · exact hcl2 p hptail
      · intro i j hnotin
        unfold writeCells at hnotin
        rw [if_pos hch] at hnotin
        have hni : ((i : Int), (j : Int)) ∉
            writeCells rest (if hor then r else r + 1) (if hor then c + 1 else c) hor :=
          fun hmem => hnotin (List.mem_cons_of_mem _ hmem)
        have hne : ¬((i : Int) = r ∧ (j : Int) = c) := by
          intro ⟨hi, hj⟩
          exact hnotin (by rw [hi, hj]; exact List.mem_cons_self _ _)
        rw [hget2 i j hni, hget1 i j hne]
    · obtain ⟨b2, hb2, hd2, hcl2, hget2⟩ := ih b _ _ hor hd hfit2
      refine ⟨b2, ?_, hd2, ?_, ?_⟩
      · unfold removeAux
        rw [if_neg hch]
        exact hb2
      · intro p hp
        unfold writeCells at hp
        rw [if_neg hch] at hp
        exact hcl2 p hp
      · intro i j hnotin
        unfold writeCells at hnotin
        rw [if_neg hch] at hnotin
        exact hget2 i j hnotin

/-- Reading a board at natural-number coordinates. -/
lemma boardGet_natCast (b : List (List Cell)) (i j : ℕ) :
    boardGet b (i : Int) (j : Int) = (b.get? i).bind fun row => row.get? j := by
  unfold boardGet
  rw [pyGetI_nonneg _ _ (Int.natCast_nonneg i), Int.toNat_natCast]
  cases b.get? i with
  | none => rfl
  | some row =>
    dsimp only [Option.bind]
    rw [pyGetI_nonneg _ _ (Int.natCast_nonneg j), Int.toNat_natCast]

/-- Two boards of the fixed extent agreeing cell-by-cell are equal. -/
lemma board_ext (b1 b2 : List (List Cell)) (h1 : dims15 b1) (h2 : dims15 b2)
    (h : ∀ i j : ℕ, i < 15 → j < 15 → boardGet b1 i j = boardGet b2 i j) : b1 = b2 := by
  have hb1len : b1.length = 15 := h1.1
  have hb2len : b2.length = 15 := h2.1
  apply List.ext_get?
  intro n
  by_cases hn : n < 15
  · obtain ⟨row1, hrow1⟩ : ∃ row, b1.get? n = some row := by
      rw [List.get?_eq_getElem?, List.getElem?_eq_getElem (by omega : n < b1.length)]
      exact ⟨_, rfl⟩
    obtain ⟨row2, hrow2⟩ : ∃ row, b2.get? n = some row := by
      rw [List.get?_eq_getElem?, List.getElem?_eq_getElem (by omega : n < b2.length)]
      exact ⟨_, rfl⟩
    rw [hrow1, hrow2]
    congr 1
    apply List.ext_get?
    intro m
    by_cases hm : m < 15
    · have hcell := h n m hn hm
      rw [boardGet_natCast, boardGet_natCast, hrow1, hrow2] at hcell
      simpa using hcell
    · rw [List.get?_eq_getElem?, List.get?_eq_getElem?,
        List.getElem?_eq_none (by rw [dims15_row b1 row1 n h1 hrow1]; omega),
        List.getElem?_eq_none (by rw [dims15_row b2 row2 n h2 hrow2]; omega)]
  · rw [List.get?_eq_getElem?, List.get?_eq_getElem?,
      List.getElem?_eq_none (by omega : b1.length ≤ n),
      List.getElem?_eq_none (by omega : b2.length ≤ n)]

/-! ## Claim C6 — place then remove restores the board -/

/-- C6: placing a word (no `.` skip characters, in-bounds anchor, the
target cells empty beforehand) and then removing it at the same anchor and
orientation restores the board exactly; both operations succeed. -/
theorem c6_place_remove_inverse (b : List (List Cell)) (w : String) (r c : Int) (hor : Bool)
    (hd : dims15 b) (hfit : fitsOnBoard r c hor w.length)
    (_hnd : ∀ ch ∈ w.data, ch ≠ '.')
    (he : ∀ p ∈ writeCells w.data r c hor, boardGet b p.1 p.2 = some emptyCell) :
    ∃ b1 b2, place_word b w r c hor = some b1 ∧ remove_word b1 w r c hor = some b2 ∧
      b2 = b := by
  obtain ⟨b1, hb1, hd1, hget1⟩ := placeAux_spec w.data b r c hor hd hfit
  obtain ⟨b2, hb2, hd2, hcl2, hget2⟩ := removeAux_spec w.data b1 r c hor hd1 hfit
  refine ⟨b1, b2, hb1, hb2, ?_⟩
  apply board_ext b2 b hd2 hd
  intro i j hi hj
  by_cases hmem : ((i : Int), (j : Int)) ∈ writeCells w.data r c hor
  · have hc2 := hcl2 _ hmem
    have hcb := he _ hmem
    rw [hc2, hcb]
  · rw [hget2 i j hmem, hget1 i j hmem]

/-- Witness for `c6_place_remove_inverse`: placing `AB` at `8H` on the
empty board and withdrawing it restores the empty board. -/
theorem c6_witness :
    (place_word initGS.board ("AB") 7 7 true).bind
      (fun b1 => remove_word b1 ("AB") 7 7 true) = some initGS.board := by
  obtain ⟨b1, b2, h1, h2, h3⟩ :=
    c6_place_remove_inverse initGS.board ("AB") 7 7 true (by decide) (by decide)
      (by decide) (by decide)
  rw [h1, Option.some_bind, h2, h3]

/-! ## Replay-transition characterizations (for C2, C4, C5, C9) -/

/-- Characterization of a special-event move line (anchor not alphanumeric,
not a withdrawal, not an exchange): the acting player's rack and score are
updated, the pending-withdrawal slot is CLEARED, `on_turn`, `turn` and the
board are untouched, and exactly one snapshot is appended. -/
lemma stepMove_event_char
    (rs : Reps) (pname rack coord word score_str : String) (tl : List String) (rs' : Reps)
    (hw : coord ≠ ("--"))
    (hx : (pyStarts word ("-") && decide (2 ≤ word.length)) = false)
    (hct : coord = ("(challenge)") ∨ coord = ("(time)") ∨
      (∃ c0 t, coord.data = c0 :: t ∧ c0.isAlphanum = false))
    (h : stepMove rs pname (rack :: coord :: word :: score_str :: tl) = some rs') :
    ∃ racks2 total scores2,
      pySetI rs.state.racks ((rs.nicknames pname).getD rs.state.on_turn) rack = some racks2 ∧
      pySetI rs.state.scores ((rs.nicknames pname).getD rs.state.on_turn) total = some scores2 ∧
      rs'.state = { rs.state with racks := racks2, scores := scores2 } ∧
      rs'.states = rs.states ++ [rs'.state] ∧
      rs'.pending = none ∧
      rs'.nicknames = rs.nicknames := by
  unfold stepMove at h
  dsimp only at h
  split at h
  · exact absurd h (by simp)
  rename_i racks2 hracks
  split at h
  · exact absurd h (by simp)
  rename_i total htotal
  rw [if_neg hw, hx] at h
  rw [if_neg (by simp)] at h
  split at h
  · -- the event scrutinee evaluated to `none`: impossible given `hct`
    rename_i hnone
    rcases hct with hc | hc | ⟨c0, t, hc, _⟩
    · rw [if_pos (Or.inl hc)] at hnone; exact absurd hnone (by simp)
    · rw [if_pos (Or.inr hc)] at hnone; exact absurd hnone (by simp)
    · by_cases hio : coord = ("(challenge)") ∨ coord = ("(time)")
      · rw [if_pos hio] at hnone; exact absurd hnone (by simp)
      · rw [if_neg hio, hc] at hnone; exact absurd hnone (by simp)
  rename_i ev hev
  have hevt : ev = true := by
    rcases hct with hc | hc | ⟨c0, t, hc, hc0⟩
    · rw [if_pos (Or.inl hc)] at hev; injection hev with hev; exact hev.symm
    · rw [if_pos (Or.inr hc)] at hev; injection hev with hev; exact hev.symm
    · by_cases hio : coord = ("(challenge)") ∨ coord = ("(time)")
      · rw [if_pos hio] at hev; injection hev with hev; exact hev.symm
      · rw [if_neg hio, hc] at hev
        simp only [List.head?, Option.map_some] at hev
        injection hev with hev
        rw [← hev]
        simp [hc0]
  rw [hevt, if_pos rfl] at h
  unfold eventMove at h
  split at h
  · exact absurd h (by simp)
  rename_i scores2 hscores
  injection h with h
  refine ⟨racks2, total, scores2, hracks, ?_, ?_, ?_, ?_, ?_⟩
  · simpa using hscores
  · rw [← h]
  · rw [← h]
  · rw [← h]
  · rw [← h]

/-- Characterization of a regular-placement move line: the word is placed
on the board, the score and rack are updated, the placement is remembered
in the pending slot, `on_turn` flips, `turn` increments, and exactly one
snapshot is appended. -/
lemma stepMove_place_char
    (rs : Reps) (pname rack coord word score_str : String) (tl : List String) (rs' : Reps)
    (r c : Int) (hor : Bool)
    (hw : coord ≠ ("--"))
    (hx : (pyStarts word ("-") && decide (2 ≤ word.length)) = false)
    (hct : ¬(coord = ("(challenge)") ∨ coord = ("(time)")))
    (hal : ∃ c0 t, coord.data = c0 :: t ∧ c0.isAlphanum = true)
    (hpar : ¬(pyStarts word ("(") && pyEnds word (")")) = true)
    (hco : parse_coord coord = some (r, c, hor))
    (h : stepMove rs pname (rack :: coord :: word :: score_str :: tl) = some rs') :
    ∃ racks2 total scores2 b2,
      pySetI rs.state.racks ((rs.nicknames pname).getD rs.state.on_turn) rack = some racks2 ∧
      place_word rs.state.board word r c hor = some b2 ∧
      pySetI rs.state.scores ((rs.nicknames pname).getD rs.state.on_turn) total = some scores2 ∧
      rs'.state = { rs.state with
        board := b2
        racks := racks2
        scores := scores2
        on_turn := 1 - ((rs.nicknames pname).getD rs.state.on_turn)
        turn := rs.state.turn + 1 } ∧
      rs'.states = rs.states ++ [rs'.state] ∧
      rs'.pending = some (r, c, hor, word) ∧
      rs'.nicknames = rs.nicknames := by
  obtain ⟨c0, t, hc0, hc0al⟩ := hal
  unfold stepMove at h
  dsimp only at h
  split at h
  · exact absurd h (by simp)
  rename_i racks2 hracks
  split at h
  · exact absurd h (by simp)
  rename_i total htotal
  rw [if_neg hw, hx] at h
  rw [if_neg (by simp)] at h
  split at h
  · exact absurd h (by simp [if_neg hct, hc0])
  rename_i ev hev
  have hevf : ev = false := by
    rw [if_neg hct, hc0] at hev
    simp only [List.head?, Option.map_some] at hev
    injection hev with hev
    rw [← hev]
    simp [hc0al]
  rw [hevf] at h
  rw [if_neg (by simp)] at h
  rw [if_neg (by simp [hpar])] at h
  rw [hco] at h
  dsimp only at h
  unfold placeMove at h
  split at h
  · exact absurd h (by simp)
  rename_i b2 hb2
  split at h
  · exact absurd h (by simp)
  rename_i scores2 hscores
  injection h with h
  refine ⟨racks2, total, scores2, b2, hracks, ?_, ?_, ?_, ?_, ?_, ?_⟩
  · simpa using hb2
  · simpa using hscores
  · rw [← h]
  · rw [← h]
  · rw [← h]
  · rw [← h]

/-- Characterization of a withdrawal move line (anchor field `--`) when a
pending placement is carried: the acting player's rack is updated, the
score reverts to the total carried on the line (when it parses), the
pending word is removed from the board, `on_turn` and `turn` are untouched,
the pending slot is cleared, and exactly one snapshot is appended. -/
lemma stepMove_withdrawal_char
    (rs : Reps) (pname rack word score_str : String) (tl : List String) (rs' : Reps)
    (pr pc : Int) (ph : Bool) (pw : String) (tW : Int)
    (hpend : rs.pending = some (pr, pc, ph, pw))
    (htW : pyInt score_str = some tW)
    (h : stepMove rs pname (rack :: ("--") :: word :: score_str :: tl) = some rs') :
    ∃ racks2 scores2 b2,
      pySetI rs.state.racks ((rs.nicknames pname).getD rs.state.on_turn) rack = some racks2 ∧
      pySetI rs.state.scores ((rs.nicknames pname).getD rs.state.on_turn) tW = some scores2 ∧
      remove_word rs.state.board pw pr pc ph = some b2 ∧
      rs'.state = { rs.state with board := b2, racks := racks2, scores := scores2 } ∧
      rs'.states = rs.states ++ [rs'.state] ∧
      rs'.pending = none ∧
      rs'.nicknames = rs.nicknames := by
  unfold stepMove at h
  dsimp only at h
  split at h
  · exact absurd h (by simp)
  rename_i racks2 hracks
  split at h
  · exact absurd h (by simp)
  rename_i total htotal
  rw [if_pos rfl] at h
  unfold withdrawalMove at h
  rw [htW] at h
  dsimp only at h
  split at h
  · exact absurd h (by simp)
  rename_i scores2 hscores
  rw [hpend] at h
  dsimp only at h
  split at h
  · exact absurd h (by simp)
  rename_i b2 hb2
  injection h with h
  refine ⟨racks2, scores2, b2, hracks, ?_, ?_, ?_, ?_, ?_, ?_⟩
  · exact hscores
  · exact hb2
  · rw [← h]
  · rw [← h]
  · rw [← h]
  · rw [← h]

/-! ## Claim C2 — event-marker transitions -/

/-- A carried replay state with a pending placement, used to exhibit what
an event line does to the pending slot and the racks. -/
def c2Reps : Reps where
  state := initGS
  nicknames := fun _ => none
  states := [initGS]
  pending := some (7, 7, true, ("AB" : String))

/-- C2 counterexample: on the event line `>b: DEF (challenge) ch +5 5`
(anchor `(challenge)` is not alphanumeric) the transition does NOT leave
"everything else" unchanged: it clears the pending-withdrawal slot and
overwrites the acting player's rack with the line's rack field. -/
theorem c2_counterexample :
    c2Reps.pending = some (7, 7, true, ("AB")) ∧
    c2Reps.state.racks = [(""), ("")] ∧
    (stepLine c2Reps (">b: DEF (challenge) ch +5 5")).map Reps.pending = some none ∧
    (stepLine c2Reps (">b: DEF (challenge) ch +5 5")).map (fun x => x.state.racks) =
      some [("DEF"), ("")] := by
  exact ⟨by decide, by decide, by decide, by decide⟩

/-- C2 (amended): an event-marker move line updates the acting player's
score AND rack, CLEARS the pending-withdrawal slot, leaves `on_turn`,
`turn` and the board unchanged, and appends exactly one snapshot. -/
theorem c2_amended
    (rs : Reps) (pname rack coord word score_str : String) (tl : List String) (rs' : Reps)
    (hw : coord ≠ ("--"))
    (hx : (pyStarts word ("-") && decide (2 ≤ word.length)) = false)
    (hct : coord = ("(challenge)") ∨ coord = ("(time)") ∨
      (∃ c0 t, coord.data = c0 :: t ∧ c0.isAlphanum = false))
    (h : stepMove rs pname (rack :: coord :: word :: score_str :: tl) = some rs') :
    rs'.state.on_turn = rs.state.on_turn ∧
    rs'.state.board = rs.state.board ∧
    rs'.state.turn = rs.state.turn ∧
    rs'.states = rs.states ++ [rs'.state] ∧
    rs'.pending = none ∧
    (∃ racks2, pySetI rs.state.racks ((rs.nicknames pname).getD rs.state.on_turn) rack =
      some racks2 ∧ rs'.state.racks = racks2) ∧
    (∃ total scores2, pySetI rs.state.scores ((rs.nicknames pname).getD rs.state.on_turn)
      total = some scores2 ∧ rs'.state.scores = scores2) := by
  obtain ⟨racks2, total, scores2, hracks, hscores, hst, hsts, hpend, _⟩ :=
    stepMove_event_char rs pname rack coord word score_str tl rs' hw hx hct h
  refine ⟨?_, ?_, ?_, hsts, hpend, ⟨racks2, hracks, ?_⟩, ⟨total, scores2, hscores, ?_⟩⟩ <;>
    rw [hst]

/-! ## Claim C4 — withdrawal immediately after a placement -/

/-- C4: when a withdrawal line (anchor `--`, parseable carried total)
immediately follows a regular placement, the withdrawal transition clears
exactly the non-`.` cells written by the pending word (the rest of the
board is untouched), reverts the acting player's score to the carried
total, leaves `on_turn` and `turn` unchanged, clears the pending slot, and
appends exactly one snapshot. -/
theorem c4_withdrawal_reverts
    (rs rs1 rs2 : Reps)
    (p1name rack1 coord word score1 : String) (tl1 : List String)
    (p2name rack2 word2 score2 : String) (tl2 : List String)
    (r c : Int) (hor : Bool) (tW : Int)
    (hw : coord ≠ ("--"))
    (hx : (pyStarts word ("-") && decide (2 ≤ word.length)) = false)
    (hct : ¬(coord = ("(challenge)") ∨ coord = ("(time)")))
    (hal : ∃ c0 t, coord.data = c0 :: t ∧ c0.isAlphanum = true)
    (hpar : ¬(pyStarts word ("(") && pyEnds word (")")) = true)
    (hco : parse_coord coord = some (r, c, hor))
    (hdims : dims15 rs.state.board)
    (hfit : fitsOnBoard r c hor word.length)
    (h1 : stepMove rs p1name (rack1 :: coord :: word :: score1 :: tl1) = some rs1)
    (htW : pyInt score2 = some tW)
    (h2 : stepMove rs1 p2name (rack2 :: ("--") :: word2 :: score2 :: tl2) = some rs2) :
    rs2.pending = none ∧
    rs2.state.on_turn = rs1.state.on_turn ∧
    rs2.state.turn = rs1.state.turn ∧
    rs2.states = rs1.states ++ [rs2.state] ∧
    (∃ scores2, pySetI rs1.state.scores ((rs1.nicknames p2name).getD rs1.state.on_turn) tW =
      some scores2 ∧ rs2.state.scores = scores2) ∧
    (∀ p ∈ writeCells word.data r c hor, boardGet rs2.state.board p.1 p.2 = some emptyCell) ∧
    (∀ i j : ℕ, ((i : Int), (j : Int)) ∉ writeCells word.data r c hor →
      boardGet rs2.state.board i j = boardGet rs1.state.board i j) := by
  obtain ⟨racks2, total, scores2, b2, _, hplace, _, hst1, _, hpend1, _⟩ :=
    stepMove_place_char rs p1name rack1 coord word score1 tl1 rs1 r c hor
      hw hx hct hal hpar hco h1
  obtain ⟨racks3, scores3, b3, _, hscores3, hremove, hst2, hsts2, hpend2, _⟩ :=
    stepMove_withdrawal_char rs1 p2name rack2 word2 score2 tl2 rs2 r c hor word tW
      hpend1 htW h2
  -- the board after the placement has the fixed extent
  obtain ⟨b2x, hb2x, hd2x, _⟩ := placeAux_spec word.data rs.state.board r c hor hdims hfit
  have hb2eq : b2x = b2 := by
    have := hb2x.symm.trans hplace
    injection this
  rw [hb2eq] at hd2x
  have hboard1 : rs1.state.board = b2 := by rw [hst1]
  -- the removal clears exactly the walk cells
  obtain ⟨b3x, hb3x, _, hclear, hkeep⟩ :=
    removeAux_spec word.data rs1.state.board r c hor (by rw [hboard1]; exact hd2x) hfit
  have hb3eq : b3x = b3 := by
    have := hb3x.symm.trans hremove
    injection this
  rw [hb3eq] at hclear hkeep
  have hboard2 : rs2.state.board = b3 := by rw [hst2]
  refine ⟨hpend2, ?_, ?_, hsts2, ⟨scores3, hscores3, ?_⟩, ?_, ?_⟩
  · rw [hst2]
  · rw [hst2]
  · rw [hst2]
  · intro p hp
    rw [hboard2]
    exact hclear p hp
  · intro i j hij
    rw [hboard2]
    exact hkeep i j hij

/-- Result state of the `c2_amended` witness transition. -/
def c2out : Reps :=
  (stepMove c2Reps ("b") [("DEF"), ("(challenge)"), ("ch"), ("+5"), ("5")]).getD initReps

/-- Witness for `c2_amended` on a concrete challenge-bonus line. -/
theorem c2_amended_witness :
    c2out.pending = none ∧ c2out.state.on_turn = c2Reps.state.on_turn ∧
    c2out.state.racks = [("DEF"), ("")] := by
  have hrs : stepMove c2Reps ("b") [("DEF"), ("(challenge)"), ("ch"), ("+5"), ("5")] =
      some c2out := rfl
  have hc := c2_amended c2Reps ("b") ("DEF") ("(challenge)") ("ch") ("+5") [("5")] c2out
    (by decide) (by decide) (Or.inl rfl) hrs
  refine ⟨hc.2.2.2.2.1, hc.1, ?_⟩
  obtain ⟨racks2, hracks, hrr⟩ := hc.2.2.2.2.2.1
  rw [hrr]
  have h0 : pySetI c2Reps.state.racks ((c2Reps.nicknames ("b")).getD c2Reps.state.on_turn)
      ("DEF") = some [("DEF" : String), ("" : String)] := by decide
  rw [h0] at hracks
  injection hracks with hh
  exact hh.symm

/-- Intermediate states of the `c4_withdrawal_reverts` witness replay:
place `AB` at `8H`, then withdraw it. -/
def c4rs1 : Reps :=
  (stepMove initReps ("a") [("ABC"), ("8H"), ("AB"), ("+10"), ("10")]).getD initReps

/-- Second intermediate state of the `c4_withdrawal_reverts` witness. -/
def c4rs2 : Reps :=
  (stepMove c4rs1 ("a") [("ABCDEFG"), ("--"), ("-10"), ("0")]).getD initReps

/-- Witness for `c4_withdrawal_reverts`: after the withdrawal the pending
slot is empty and the anchor cell `8H` is empty again. -/
theorem c4_witness :
    c4rs2.pending = none ∧ boardGet c4rs2.state.board 7 7 = some emptyCell := by
  have h1 : stepMove initReps ("a") [("ABC"), ("8H"), ("AB"), ("+10"), ("10")] =
      some c4rs1 := rfl
  have h2 : stepMove c4rs1 ("a") [("ABCDEFG"), ("--"), ("-10"), ("0")] = some c4rs2 := rfl
  have hc := c4_withdrawal_reverts initReps c4rs1 c4rs2 ("a") ("ABC") ("8H") ("AB") ("+10")
    [("10")] ("a") ("ABCDEFG") ("-10") ("0") [] 7 7 true 0
    (by decide) (by decide) (by decide) ⟨'8', ['H'], rfl, rfl⟩ (by decide) (by decide)
    (by decide) (by decide) h1 (by decide) h2
  exact ⟨hc.1, hc.2.2.2.2.2.1 (7, 7) (by decide)⟩

/-! ## Claim C7 — the combined-score formula -/

/-- The score-bonus formula as the spec states it: the smaller of the two
player-order pairings' absolute total differences earns
`0.1 * (1 - diff/(tolerance*10))` when within tolerance, else nothing. -/
def specScoreBonus (t0 t1 o0 o1 : Int) (tol : ℚ) : ℚ :=
  let diff : ℚ := ((min ((t0 - o0).natAbs + (t1 - o1).natAbs)
    ((t0 - o1).natAbs + (t1 - o0).natAbs) : ℕ) : ℚ)
  if diff ≤ tol then (0.1 : ℚ) * (1 - diff / (tol * 10)) else 0

/-- The combined score as the spec states it:
`0.6*occupancy + 0.3*letter_accuracy + score_bonus`. -/
def specCombined (occ acc bonus : ℚ) : ℚ :=
  (0.6 : ℚ) * occ + (0.3 : ℚ) * acc + bonus

/-- C7: for every snapshot that `find_matching_turn` scores with observed
scores supplied (the occupancy gate passed), the value entered into the
best-candidate comparison is exactly the spec's combined score
`0.6*occupancy + 0.3*letter_accuracy + score_bonus`, with the bonus as in
`specScoreBonus`. -/
theorem c7_combined_score_formula
    (ocr truth : String) (o0 o1 t0 t1 : Int) (tol : ℚ)
    (best : ℕ × ℚ × Option GameState) (i : ℕ) (st : GameState) (occ acc : ℚ)
    (htr : to_cgp st = some truth)
    (hocc : occupancy_similarity ocr truth = some occ)
    (hgate : ¬(occ < (0.90 : ℚ)))
    (hacc : letter_accuracy ocr truth = some acc)
    (hts : scores_from_cgp truth = some (t0, t1)) :
    scoreState ocr (some (o0, o1)) tol best (i, st) =
      some (if best.2.1 < specCombined occ acc (specScoreBonus t0 t1 o0 o1 tol) then
          (i, specCombined occ acc (specScoreBonus t0 t1 o0 o1 tol), some st)
        else best) := by
  unfold scoreState
  dsimp only
  rw [htr]
  simp only [Option.bind_eq_bind, Option.some_bind]
  rw [hocc]
  simp only [Option.bind_eq_bind, Option.some_bind]
  rw [if_neg hgate, hacc]
  simp only [Option.bind_eq_bind, Option.some_bind]
  unfold scoreBonusOf
  rw [hts]
  dsimp only
  unfold specCombined specScoreBonus
  dsimp only
  rw [mul_comm occ ((0.6 : ℚ)), mul_comm acc ((0.3 : ℚ))]
  rfl

/-- Witness for `c7_combined_score_formula`: the one-tile board compared
with its own record and observed scores `(3, 2)` against truth `(0, 0)`
gives occupancy 1, letter accuracy 1, diff 5 and bonus `0.09`, so the
combined score is `0.99` and the best slot is updated. -/
theorem c7_witness :
    scoreState ("10A4/15/15/15/15/15/15/15/15/15/15/15/15/15/15 / 0 0 lex NWL23;")
      (some (3, 2)) 5 (0, 0, none) (1, cgpBugGS) =
      some (1, (0.99 : ℚ), some cgpBugGS) := by
  have hocc : occupancy_similarity
      ("10A4/15/15/15/15/15/15/15/15/15/15/15/15/15/15 / 0 0 lex NWL23;")
      ("10A4/15/15/15/15/15/15/15/15/15/15/15/15/15/15 / 0 0 lex NWL23;") =
      some (((1 : ℕ) : ℚ) / ((1 : ℕ) : ℚ)) := rfl
  have hacc : letter_accuracy
      ("10A4/15/15/15/15/15/15/15/15/15/15/15/15/15/15 / 0 0 lex NWL23;")
      ("10A4/15/15/15/15/15/15/15/15/15/15/15/15/15/15 / 0 0 lex NWL23;") =
      some (((1 : ℕ) : ℚ) / ((1 : ℕ) : ℚ)) := rfl
  have h11 : (((1 : ℕ) : ℚ) / ((1 : ℕ) : ℚ)) = 1 := by norm_num
  rw [h11] at hocc hacc
  rw [c7_combined_score_formula
    ("10A4/15/15/15/15/15/15/15/15/15/15/15/15/15/15 / 0 0 lex NWL23;")
    ("10A4/15/15/15/15/15/15/15/15/15/15/15/15/15/15 / 0 0 lex NWL23;")
    3 2 0 0 5 (0, 0, none) 1 cgpBugGS 1 1
    (by decide) hocc (by norm_num) hacc (by decide)]
  norm_num [specCombined, specScoreBonus]

/-! ## Claim C10 — no observed scores caps the combined score at 0.9 -/

lemma interLen_le_unionLen (a b : List (ℕ × ℕ)) : interLen a b ≤ unionLen a b := by
  unfold interLen unionLen
  calc (a.filter (· ∈ b)).length ≤ a.length := List.length_filter_le _ a
    _ ≤ (a ++ b.filter (· ∉ a)).length := by simp

lemma occupancy_similarity_le_one (a b : String) (q : ℚ)
    (h : occupancy_similarity a b = some q) : q ≤ 1 := by
  unfold occupancy_similarity at h
  cases hba : board_occupancy a with
  | none => rw [hba] at h; exact absurd h (by simp)
  | some la =>
    cases hbb : board_occupancy b with
    | none => rw [hba, hbb] at h; exact absurd h (by simp)
    | some lb =>
      rw [hba, hbb] at h
      simp only [Option.bind_eq_bind, Option.some_bind] at h
      split at h
      · injection h with h; rw [← h]
      · injection h with h
        rw [← h]
        split
        · rename_i hu
          rw [div_le_one (by exact_mod_cast hu)]
          exact_mod_cast interLen_le_unionLen la lb
        · norm_num

lemma letter_accuracy_le_one (a b : String) (q : ℚ)
    (h : letter_accuracy a b = some q) : q ≤ 1 := by
  unfold letter_accuracy at h
  cases hba : board_occupancy a with
  | none => rw [hba] at h; exact absurd h (by simp)
  | some la =>
    cases hbb : board_occupancy b with
    | none => rw [hba, hbb] at h; exact absurd h (by simp)
    | some lb =>
      rw [hba, hbb] at h
      simp only [Option.bind_eq_bind, Option.some_bind] at h
      split at h
      · injection h with h; rw [← h]; norm_num
      · rename_i hne
        cases hla : board_letters a with
        | none => rw [hla] at h; exact absurd h (by simp)
        | some fa =>
          cases hlb : board_letters b with
          | none => rw [hla, hlb] at h; exact absurd h (by simp)
          | some fb =>
            rw [hla, hlb] at h
            simp only [Option.bind_eq_bind, Option.some_bind] at h
            injection h with h
            rw [← h]
            have hle := List.length_filter_le (fun pos => fa pos = fb pos)
              (la.filter (· ∈ lb))
            have hpos : 0 < ((la.filter (· ∈ lb)).length : ℚ) := by
              have : (la.filter (· ∈ lb)) ≠ [] := by
                intro hx
                rw [hx] at hne
                exact hne rfl
              have : 0 < (la.filter (· ∈ lb)).length := List.length_pos.mpr this
              exact_mod_cast this
            rw [div_le_one hpos]
            exact_mod_cast hle

lemma scoreState_none_le (ocr : String) (tol : ℚ) (best best2 : ℕ × ℚ × Option GameState)
    (ist : ℕ × GameState) (h : scoreState ocr none tol best ist = some best2)
    (hb : best.2.1 ≤ (0.9 : ℚ)) : best2.2.1 ≤ (0.9 : ℚ) := by
  unfold scoreState at h
  cases htr : to_cgp ist.2 with
  | none => rw [htr] at h; exact absurd h (by simp)
  | some truth =>
    rw [htr] at h
    simp only [Option.bind_eq_bind, Option.some_bind] at h
    cases hocc : occupancy_similarity ocr truth with
    | none => rw [hocc] at h; exact absurd h (by simp)
    | some occ =>
      rw [hocc] at h
      simp only [Option.bind_eq_bind, Option.some_bind] at h
      split at h
      · injection h with h; rw [← h]; exact hb
      · cases hacc : letter_accuracy ocr truth with
        | none => rw [hacc] at h; exact absurd h (by simp)
        | some acc =>
          rw [hacc] at h
          simp only [Option.bind_eq_bind, Option.some_bind] at h
          injection h with h
          have hocc1 : occ ≤ 1 := occupancy_similarity_le_one ocr truth occ hocc
          have hacc1 : acc ≤ 1 := letter_accuracy_le_one ocr truth acc hacc
          have hbonus : scoreBonusOf truth none tol = 0 := rfl
          rw [hbonus] at h
          rw [← h]
          split
          · dsimp only
            linarith
          · exact hb

lemma find_matching_turn_fold_le (ocr : String) (tol : ℚ) :
    ∀ (l : List (ℕ × GameState)) (b r : ℕ × ℚ × Option GameState),
      b.2.1 ≤ (0.9 : ℚ) → l.foldlM (scoreState ocr none tol) b = some r →
      r.2.1 ≤ (0.9 : ℚ) := by
  intro l
  induction l with
  | nil =>
    intro b r hb h
    injection h with h
    rw [← h]
    exact hb
  | cons x rest ih =>
    intro b r hb h
    rw [List.foldlM_cons] at h
    cases hx : scoreState ocr none tol b x with
    | none => rw [hx] at h; exact absurd h (by simp)
    | some b2 =>
      rw [hx] at h
      simp only [Option.bind_eq_bind, Option.some_bind] at h
      exact ih b2 r (scoreState_none_le ocr tol b b2 x hx hb) h

lemma find_matching_turn_none_le (ocr : String) (states : List GameState) (tol : ℚ)
    (i : ℕ) (sim : ℚ) (stOpt : Option GameState)
    (h : find_matching_turn ocr states none tol = some (i, sim, stOpt)) :
    sim ≤ (0.9 : ℚ) := by
  have := find_matching_turn_fold_le ocr tol (List.enumFrom 1 (states.drop 1))
    (0, 0, none) (i, sim, stOpt) (by norm_num) h
  simpa using this

/-- Unfolding equation of `matchLoop` on a cons candidate list. -/
lemma matchLoop_cons (ocr : String) (scores : Option (Int × Int)) (gid txt : String)
    (rest : List (String × String)) (bm : Option MatchResult) (bs : ℚ) :
    matchLoop ocr scores ((gid, txt) :: rest) (bm, bs) =
      match parse_gcg txt with
      | none => matchLoop ocr scores rest (bm, bs)
      | some states =>
        match find_matching_turn ocr states scores with
        | none => none
        | some (ti, sim, stOpt) =>
          if bs < sim then
            match (match stOpt with
                   | none => some (none : Option String)
                   | some st => (to_cgp st).map some) with
            | none => none
            | some golden =>
              let bm2 : Option MatchResult :=
                some ⟨gid, ti, golden, sim, (stOpt.map GameState.players).getD []⟩
              if (0.98 : ℚ) ≤ sim then some (bm2, sim)
              else matchLoop ocr scores rest (bm2, sim)
          else matchLoop ocr scores rest (bm, bs) := rfl

/-- C10: with no observed scores the score bonus is identically zero,
every similarity produced by `find_matching_turn` is at most `0.9`
(strictly below the `0.98` early-exit threshold), and consequently the
candidate loop of `match_screenshot` never breaks early: it processes a
concatenation of candidate lists exactly as the two lists in sequence. -/
theorem c10_no_scores_cap :
    (∀ (truth : String) (tol : ℚ), scoreBonusOf truth none tol = 0) ∧
    (∀ (ocr : String) (states : List GameState) (tol : ℚ) (i : ℕ) (sim : ℚ)
      (stOpt : Option GameState),
      find_matching_turn ocr states none tol = some (i, sim, stOpt) → sim ≤ (0.9 : ℚ)) ∧
    (∀ (ocr : String) (cs1 cs2 : List (String × String)) (b : Option MatchResult × ℚ),
      b.2 ≤ (0.9 : ℚ) →
      matchLoop ocr none (cs1 ++ cs2) b =
        (matchLoop ocr none cs1 b).bind (matchLoop ocr none cs2)) := by
  refine ⟨fun truth tol => rfl, fun ocr states tol i sim stOpt h =>
    find_matching_turn_none_le ocr states tol i sim stOpt h, ?_⟩
  intro ocr cs1
  induction cs1 with
  | nil =>
    intro cs2 b hb
    rw [List.nil_append]
    rfl
  | cons cand rest ih =>
    intro cs2 b hb
    obtain ⟨gid, txt⟩ := cand
    obtain ⟨bm, bs⟩ := b
    rw [List.cons_append, matchLoop_cons, matchLoop_cons]
    cases hp : parse_gcg txt with
    | none =>
      dsimp only
      exact ih cs2 (bm, bs) hb
    | some states =>
      dsimp only
      cases hf : find_matching_turn ocr states none with
      | none => rfl
      | some tri =>
        obtain ⟨ti, sim, stOpt⟩ := tri
        have hsim : sim ≤ (0.9 : ℚ) :=
          find_matching_turn_none_le ocr states 5 ti sim stOpt hf
        dsimp only
        split
        · rename_i hlt
          cases hg : (match stOpt with
              | none => some (none : Option String)
              | some st => (to_cgp st).map some) with
          | none => rfl
          | some golden =>
            dsimp only
            have hn : ¬((0.98 : ℚ) ≤ sim) := by intro hge; linarith
            rw [if_neg hn, if_neg hn]
            exact ih cs2
              (some ⟨gid, ti, golden, sim, (stOpt.map GameState.players).getD []⟩, sim)
              (by simpa using hsim)
        · exact ih cs2 (bm, bs) hb

/-- Witness for `c10_no_scores_cap`: a one-snapshot replay scores `0 ≤ 0.9`,
and the loop over a singleton candidate list concatenated with the empty
list equals the sequential composition. -/
theorem c10_witness :
    (0 : ℚ) ≤ (0.9 : ℚ) ∧
    matchLoop ("x") none ([(("g"), (""))] ++ []) ((none : Option MatchResult), 0) =
      (matchLoop ("x") none [(("g"), (""))] ((none : Option MatchResult), 0)).bind
        (matchLoop ("x") none []) :=
  ⟨c10_no_scores_cap.2.1 ("x") [initGS] 5 0 0 none rfl,
    c10_no_scores_cap.2.2 ("x") [(("g"), (""))] [] ((none : Option MatchResult), 0)
      (by norm_num)⟩

/-! ## Claim C9 — appended snapshots are never mutated -/

lemma withdrawalMove_states_extend (rs : Reps) (s0 : GameState) (pidx : Int)
    (ss : String) (rs' : Reps) (h : withdrawalMove rs s0 pidx ss = some rs') :
    ∃ t, rs'.states = rs.states ++ t := by
  unfold withdrawalMove at h
  split at h
  · exact absurd h (by simp)
  split at h
  · exact absurd h (by simp)
  split at h
  · dsimp only at h
    split at h
    · exact absurd h (by simp)
    · injection h with h
      exact ⟨_, by rw [← h]⟩
  · injection h with h
    exact ⟨_, by rw [← h]⟩

lemma scoreOnlyMove_states_extend (rs : Reps) (s0 : GameState) (pidx total : Int)
    (rs' : Reps)
    (h : exchangeMove rs s0 pidx total = some rs' ∨ eventMove rs s0 pidx total = some rs' ∨
      adjustMove rs s0 pidx total = some rs' ∨ passMove rs s0 pidx total = some rs') :
    ∃ t, rs'.states = rs.states ++ t := by
  rcases h with h | h | h | h <;>
    (first
      | (unfold exchangeMove at h; split at h
         · exact absurd h (by simp)
         · injection h with h; exact ⟨_, by rw [← h]⟩)
      | (unfold eventMove at h; split at h
         · exact absurd h (by simp)
         · injection h with h; exact ⟨_, by rw [← h]⟩)
      | (unfold adjustMove at h; split at h
         · exact absurd h (by simp)
         · injection h with h; exact ⟨_, by rw [← h]⟩)
      | (unfold passMove at h; split at h
         · exact absurd h (by simp)
         · injection h with h; exact ⟨_, by rw [← h]⟩))

lemma placeMove_states_extend (rs : Reps) (s0 : GameState) (pidx total r c : Int)
    (hor : Bool) (word : String) (rs' : Reps)
    (h : placeMove rs s0 pidx total r c hor word = some rs') :
    ∃ t, rs'.states = rs.states ++ t := by
  unfold placeMove at h
  split at h
  · exact absurd h (by simp)
  split at h
  · exact absurd h (by simp)
  injection h with h
  exact ⟨_, by rw [← h]⟩

lemma stepMove_states_extend (rs : Reps) (pname : String) (rest : List String) (rs' : Reps)
    (h : stepMove rs pname rest = some rs') : ∃ t, rs'.states = rs.states ++ t := by
  rcases rest with _ | ⟨rack, _ | ⟨coord, _ | ⟨word, _ | ⟨score_str, tl⟩⟩⟩⟩
  · injection h with h; exact ⟨[], by rw [← h]; simp⟩
  · injection h with h; exact ⟨[], by rw [← h]; simp⟩
  · injection h with h; exact ⟨[], by rw [← h]; simp⟩
  · injection h with h; exact ⟨[], by rw [← h]; simp⟩
  unfold stepMove at h
  dsimp only at h
  split at h
  · exact absurd h (by simp)
  split at h
  · exact absurd h (by simp)
  split at h
  · exact withdrawalMove_states_extend _ _ _ _ _ h
  split at h
  · exact scoreOnlyMove_states_extend _ _ _ _ _ (Or.inl h)
  split at h
  · exact absurd h (by simp)
  split at h
  · exact scoreOnlyMove_states_extend _ _ _ _ _ (Or.inr (Or.inl h))
  split at h
  · exact scoreOnlyMove_states_extend _ _ _ _ _ (Or.inr (Or.inr (Or.inl h)))
  split at h
  · exact scoreOnlyMove_states_extend _ _ _ _ _ (Or.inr (Or.inr (Or.inr h)))
  · exact placeMove_states_extend _ _ _ _ _ _ _ _ _ h

lemma stepLine_states_extend (rs : Reps) (raw : String) (rs' : Reps)
    (h : stepLine rs raw = some rs') : ∃ t, rs'.states = rs.states ++ t := by
  unfold stepLine at h
  dsimp only at h
  split at h
  · split at h
    · exact absurd h (by simp)
    · injection h with h; exact ⟨[], by rw [← h]; simp⟩
  split at h
  · split at h
    · split at h
      · exact absurd h (by simp)
      · injection h with h; exact ⟨[], by rw [← h]; simp⟩
    · injection h with h; exact ⟨[], by rw [← h]; simp⟩
  split at h
  · split at h
    · exact absurd h (by simp)
    · injection h with h; exact ⟨[], by rw [← h]; simp⟩
  split at h
  · split at h
    · exact absurd h (by simp)
    · injection h with h; exact ⟨[], by rw [← h]; simp⟩
  split at h
  · injection h with h; exact ⟨[], by rw [← h]; simp⟩
  split at h
  · exact absurd h (by simp)
  split at h
  · injection h with h; exact ⟨[], by rw [← h]; simp⟩
  · exact stepMove_states_extend _ _ _ _ h

lemma foldlM_states_extend : ∀ (ls : List String) (rs rs' : Reps),
    ls.foldlM stepLine rs = some rs' → ∃ t, rs'.states = rs.states ++ t := by
  intro ls
  induction ls with
  | nil =>
    intro rs rs' h
    injection h with h
    exact ⟨[], by rw [← h]; simp⟩
  | cons l rest ih =>
    intro rs rs' h
    rw [List.foldlM_cons] at h
    cases hl : stepLine rs l with
    | none => rw [hl] at h; exact absurd h (by simp)
    | some rs1 =>
      rw [hl] at h
      simp only [Option.bind_eq_bind, Option.some_bind] at h
      obtain ⟨t1, ht1⟩ := stepLine_states_extend rs l rs1 hl
      obtain ⟨t2, ht2⟩ := ih rs1 rs' h
      exact ⟨t1 ++ t2, by rw [ht2, ht1, List.append_assoc]⟩

/-- C9: once a snapshot has been appended by the replay loop, processing
further log lines never changes it: replaying `ls1 ++ ls2` produces a
snapshot list that extends the list produced by `ls1` alone, and every
index below the old length holds exactly the old snapshot. -/
theorem c9_snapshots_immutable (ls1 ls2 : List String) (rs1 rs : Reps)
    (h1 : ls1.foldlM stepLine initReps = some rs1)
    (h : (ls1 ++ ls2).foldlM stepLine initReps = some rs) :
    (∃ tail, rs.states = rs1.states ++ tail) ∧
    ∀ i, i < rs1.states.length → rs.states.get? i = rs1.states.get? i := by
  rw [List.foldlM_append, h1] at h
  simp only [Option.bind_eq_bind, Option.some_bind] at h
  obtain ⟨t, ht⟩ := foldlM_states_extend ls2 rs1 rs h
  refine ⟨⟨t, ht⟩, ?_⟩
  intro i hi
  rw [ht, List.get?_eq_getElem?, List.get?_eq_getElem?, List.getElem?_append_left hi]

/-- First prefix state of the `c9_snapshots_immutable` witness. -/
def c9rs1 : Reps :=
  ([("#player1 a A")].foldlM stepLine initReps).getD initReps

/-- Full-log state of the `c9_snapshots_immutable` witness. -/
def c9rs : Reps :=
  (([("#player1 a A")] ++ [(">a: AB 8H AB +2 2")]).foldlM stepLine initReps).getD initReps

/-- Witness for `c9_snapshots_immutable` on a two-line log. -/
theorem c9_witness : c9rs.states.get? 0 = c9rs1.states.get? 0 := by
  have h1 : [("#player1 a A")].foldlM stepLine initReps = some c9rs1 := rfl
  have h : ([("#player1 a A")] ++ [(">a: AB 8H AB +2 2")]).foldlM stepLine initReps =
      some c9rs := rfl
  exact (c9_snapshots_immutable [("#player1 a A")] [(">a: AB 8H AB +2 2")] c9rs1 c9rs
    h1 h).2 0 (by decide)

/-! ## Claim C5 — replay length and turn count -/

/-- A log line that the replay engine treats as a move line: after
stripping, it starts with the move marker. -/
def isMoveLineB (L : String) : Bool := pyStarts (pyStrip L) (">")

/-- The split move-line fields describe a regular placement: not a
withdrawal, not an exchange, anchor alphanumeric and not an event marker,
word not parenthesized, and the anchor parses. -/
def placementFieldsB : List String → Bool
  | _ :: coord :: word :: _ :: _ =>
    decide (coord ≠ ("--")) &&
    !(pyStarts word ("-") && decide (2 ≤ word.length)) &&
    decide (coord ≠ ("(challenge)")) && decide (coord ≠ ("(time)")) &&
    (match coord.data.head? with
     | some c0 => c0.isAlphanum
     | none => false) &&
    !(pyStarts word ("(") && pyEnds word (")")) &&
    (parse_coord coord).isSome
  | _ => false

/-- The full line is a regular-placement move line, following the exact
parsing pipeline of `stepLine`. -/
def isPlacementLineB (L : String) : Bool :=
  let line := pyStrip L
  pyStarts line (">") &&
  (match (line.data.drop 1).findIdx? (· = ':') with
   | none => false
   | some k =>
     let rest := pySplit (pyStrip ⟨(line.data.drop 1).drop (k + 1)⟩)
     decide (4 ≤ rest.length) && placementFieldsB rest)

/-- A string starting with `>` cannot start with a header tag. -/
lemma starts_gt_shape (line : String) (h : pyStarts line (">") = true) :
    ∃ t, line.data = '>' :: t := by
  unfold pyStarts at h
  cases hd : line.data with
  | nil => rw [hd] at h; exact absurd h (by decide)
  | cons c cs =>
    rw [hd] at h
    have : ('>' == c) = true := by
      simpa [List.isPrefixOf] using h
    have hc : c = '>' := (beq_iff_eq.mp this).symm
    exact ⟨cs, by rw [hc]⟩

/-- Non-move lines leave the snapshot list and the turn counter alone
(headers mutate only static fields; unrecognized lines are skipped). -/
lemma stepLine_nonmove (rs : Reps) (L : String) (rs' : Reps)
    (hmv : isMoveLineB L = false) (h : stepLine rs L = some rs') :
    rs'.states = rs.states ∧ rs'.state.turn = rs.state.turn := by
  unfold isMoveLineB at hmv
  unfold stepLine at h
  dsimp only at h
  split at h
  · split at h
    · exact absurd h (by simp)
    · injection h with h
      exact ⟨by rw [← h], by rw [← h]⟩
  split at h
  · split at h
    · split at h
      · exact absurd h (by simp)
      · injection h with h
        exact ⟨by rw [← h], by rw [← h]⟩
    · injection h with h
      exact ⟨by rw [← h], by rw [← h]⟩
  split at h
  · split at h
    · exact absurd h (by simp)
    · injection h with h
      exact ⟨by rw [← h], by rw [← h]⟩
  split at h
  · split at h
    · exact absurd h (by simp)
    · injection h with h
      exact ⟨by rw [← h], by rw [← h]⟩
  split at h
  · injection h with h
    exact ⟨by rw [← h], by rw [← h]⟩
  · rename_i hskip
    simp only [Bool.not_eq_true'] at hskip
    exact absurd hmv hskip

/-- A placement line appends exactly one snapshot and increments the turn
counter by one. -/
lemma stepLine_placement (rs : Reps) (L : String) (rs' : Reps)
    (hpl : isPlacementLineB L = true) (h : stepLine rs L = some rs') :
    rs'.states = rs.states ++ [rs'.state] ∧ rs'.state.turn = rs.state.turn + 1 := by
  unfold isPlacementLineB at hpl
  dsimp only at hpl
  rw [Bool.and_eq_true] at hpl
  obtain ⟨hgt, hrest⟩ := hpl
  obtain ⟨tdata, htd⟩ := starts_gt_shape (pyStrip L) hgt
  cases hfind : ((pyStrip L).data.drop 1).findIdx? (· = ':') with
  | none => rw [hfind] at hrest; exact absurd hrest (by simp)
  | some k =>
    rw [hfind] at hrest
    rw [Bool.and_eq_true] at hrest
    obtain ⟨hlen, hpf⟩ := hrest
    -- destructure the fields
    rcases hsp : pySplit (pyStrip ⟨((pyStrip L).data.drop 1).drop (k + 1)⟩) with
      _ | ⟨rack, _ | ⟨coord, _ | ⟨word, _ | ⟨score_str, tl⟩⟩⟩⟩ <;>
      rw [hsp] at hlen hpf <;>
      try exact absurd hpf Bool.false_ne_true
    unfold placementFieldsB at hpf
    rw [Bool.and_eq_true] at hpf
    obtain ⟨hpf, hcoord⟩ := hpf
    rw [Bool.and_eq_true] at hpf
    obtain ⟨hpf, hparB⟩ := hpf
    rw [Bool.and_eq_true] at hpf
    obtain ⟨hpf, hhead⟩ := hpf
    rw [Bool.and_eq_true] at hpf
    obtain ⟨hpf, htiB⟩ := hpf
    rw [Bool.and_eq_true] at hpf
    obtain ⟨hpf, hchB⟩ := hpf
    rw [Bool.and_eq_true] at hpf
    obtain ⟨hneB, hxchB⟩ := hpf
    have hne : coord ≠ ("--") := of_decide_eq_true hneB
    have hch : coord ≠ ("(challenge)") := of_decide_eq_true hchB
    have hti : coord ≠ ("(time)") := of_decide_eq_true htiB
    obtain ⟨⟨r, c, hor⟩, hco⟩ := Option.isSome_iff_exists.mp hcoord
    -- walk stepLine down to the move dispatch
    unfold stepLine at h
    dsimp only at h
    rw [if_neg (by rw [show pyStarts (pyStrip L) ("#lexicon") = false by
      unfold pyStarts; rw [htd]; rfl]; simp)] at h
    rw [if_neg (by rw [show pyStarts (pyStrip L) ("#id") = false by
      unfold pyStarts; rw [htd]; rfl]; simp)] at h
    rw [if_neg (by rw [show pyStarts (pyStrip L) ("#player1") = false by
      unfold pyStarts; rw [htd]; rfl]; simp)] at h
    rw [if_neg (by rw [show pyStarts (pyStrip L) ("#player2") = false by
      unfold pyStarts; rw [htd]; rfl]; simp)] at h
    rw [if_neg (by rw [hgt]; simp)] at h
    rw [hfind] at h
    dsimp only at h
    rw [hsp] at h
    rw [if_neg (by simp only [List.length_cons]; omega)] at h
    have hx : (pyStarts word ("-") && decide (2 ≤ word.length)) = false := by
      simpa only [Bool.not_eq_true'] using hxchB
    have hal : ∃ c0 t2, coord.data = c0 :: t2 ∧ c0.isAlphanum = true := by
      cases hcd : coord.data with
      | nil => rw [hcd] at hhead; exact absurd hhead (by simp)
      | cons c0 t2 =>
        rw [hcd] at hhead
        exact ⟨c0, t2, rfl, by simpa using hhead⟩
    have hparf : ¬(pyStarts word ("(") && pyEnds word (")")) = true := by
      have : (pyStarts word ("(") && pyEnds word (")")) = false := by
        simpa only [Bool.not_eq_true'] using hparB
      simp [this]
    obtain ⟨racks2, total, scores2, b2, _, _, _, hst, hsts, _, _⟩ :=
      stepMove_place_char rs _ rack coord word score_str tl rs' r c hor
        hne hx (by rintro (hc | hc); exacts [hch hc, hti hc]) hal hparf hco h
    refine ⟨hsts, ?_⟩
    rw [hst]

/-- Fold version of C5: over a log of headers/skips and regular
placements, the snapshot count and the turn counter advance exactly by the
number of move lines, snapshots are only appended, and the last snapshot
carries the current turn. -/
lemma c5_fold (ls : List String) : ∀ (rs rs' : Reps),
    (∀ L ∈ ls, isMoveLineB L = false ∨ isPlacementLineB L = true) →
    ls.foldlM stepLine rs = some rs' →
    rs'.states.length = rs.states.length + ls.countP isMoveLineB ∧
    rs'.state.turn = rs.state.turn + (ls.countP isMoveLineB : Int) ∧
    (∃ t, rs'.states = rs.states ++ t) ∧
    ((rs.states.getLast?).map GameState.turn = some rs.state.turn →
      (rs'.states.getLast?).map GameState.turn = some rs'.state.turn) := by
  induction ls with
  | nil =>
    intro rs rs' _ h
    injection h with h
    rw [← h]
    exact ⟨by simp, by simp, ⟨[], by simp⟩, fun hh => hh⟩
  | cons L rest ih =>
    intro rs rs' hls h
    rw [List.foldlM_cons] at h
    cases hl : stepLine rs L with
    | none => rw [hl] at h; exact absurd h (by simp)
    | some rs1 =>
      rw [hl] at h
      simp only [Option.bind_eq_bind, Option.some_bind] at h
      have hrest := ih rs1 rs' (fun L2 hL2 => hls L2 (List.mem_cons_of_mem _ hL2)) h
      rcases hls L (List.mem_cons_self _ _) with hmv | hpl
      · obtain ⟨hsts, hturn⟩ := stepLine_nonmove rs L rs1 hmv hl
        have hcount : (L :: rest).countP isMoveLineB = rest.countP isMoveLineB := by
          rw [List.countP_cons, hmv]
          simp
        rw [hcount]
        refine ⟨?_, ?_, ?_, ?_⟩
        · rw [hrest.1, hsts]
        · rw [hrest.2.1, hturn]
        · obtain ⟨t, ht⟩ := hrest.2.2.1
          exact ⟨t, by rw [ht, hsts]⟩
        · intro hinv
          exact hrest.2.2.2 (by rw [hsts, hturn]; exact hinv)
      · obtain ⟨hsts, hturn⟩ := stepLine_placement rs L rs1 hpl hl
        have hmv : isMoveLineB L = true := by
          unfold isPlacementLineB at hpl
          dsimp only at hpl
          rw [Bool.and_eq_true] at hpl
          exact hpl.1
        have hcount : (L :: rest).countP isMoveLineB = rest.countP isMoveLineB + 1 := by
          rw [List.countP_cons, hmv]
          simp
        rw [hcount]
        refine ⟨?_, ?_, ?_, ?_⟩
        · rw [hrest.1, hsts]
          simp only [List.length_append, List.length_cons, List.length_nil]
          omega
        · rw [hrest.2.1, hturn]
          push_cast
          ring
        · obtain ⟨t, ht⟩ := hrest.2.2.1
          exact ⟨[rs1.state] ++ t, by rw [ht, hsts, List.append_assoc]⟩
        · intro _
          refine hrest.2.2.2 ?_
          rw [hsts]
          simp

/-- C5: replaying a log whose non-header lines are exactly `N` regular
placements yields `N + 1` snapshots, starting with the initial empty
state, with the final snapshot's `turn` equal to `N`; non-move lines
contribute no snapshot and never change the turn counter. -/
theorem c5_replay_shape (t : String) (states : List GameState)
    (hok : parse_gcg t = some states)
    (hlines : ∀ L ∈ linesOf t, isMoveLineB L = false ∨ isPlacementLineB L = true) :
    states.length = (linesOf t).countP isMoveLineB + 1 ∧
    states.head? = some initGS ∧
    (states.getLast?).map GameState.turn = some (((linesOf t).countP isMoveLineB : ℕ) : Int) ∧
    ∀ (rs : Reps) (L : String) (rs' : Reps), isMoveLineB L = false →
      stepLine rs L = some rs' →
      rs'.states = rs.states ∧ rs'.state.turn = rs.state.turn := by
  unfold parse_gcg at hok
  cases hf : (linesOf t).foldlM stepLine initReps with
  | none => rw [hf] at hok; exact absurd hok (by simp)
  | some rsf =>
    rw [hf] at hok
    simp only [Option.map_some'] at hok
    injection hok with hok
    obtain ⟨hlen, hturn, ⟨tail, htail⟩, hinv⟩ := c5_fold (linesOf t) initReps rsf hlines hf
    have hinv2 := hinv (by rfl)
    refine ⟨?_, ?_, ?_, fun rs L rs' hmv hst => stepLine_nonmove rs L rs' hmv hst⟩
    · rw [← hok, hlen]
      have h1 : initReps.states.length = 1 := rfl
      omega
    · rw [← hok, htail]
      rfl
    · rw [← hok, hinv2, hturn]
      have h0 : initReps.state.turn = 0 := rfl
      rw [h0, zero_add]

/-- The two-placement demo log of the `c5_replay_shape` witness. -/
def c5log : String := "#player1 a A\n>a: AB 8H AB +2 2\n>a: CD 9H CD +4 6"

/-- Snapshot list of the witness replay. -/
def c5states : List GameState := (parse_gcg c5log).getD []

/-- Witness for `c5_replay_shape`: one header plus two placements gives
three snapshots (2 + 1), starting from the initial state, final turn 2. -/
theorem c5_witness :
    c5states.length = 3 ∧ c5states.head? = some initGS ∧
    (c5states.getLast?).map GameState.turn = some 2 := by
  have hc := c5_replay_shape c5log c5states rfl (by decide)
  have hcount : (linesOf c5log).countP isMoveLineB = 2 := by decide
  refine ⟨?_, hc.2.1, ?_⟩
  · rw [hc.1, hcount]
  · rw [hc.2.2.1, hcount]
    norm_num

/-! ## Claim C8 — well-formedness of replay states -/

/-- Structural invariants of every replayed `GameState`: two racks, two
scores, two players, a player index in range, and a 15×15 board. -/
def GameState.WF (s : GameState) : Prop :=
  s.racks.length = 2 ∧ s.scores.length = 2 ∧ s.players.length = 2 ∧
  0 ≤ s.on_turn ∧ s.on_turn < 2 ∧ dims15 s.board

/-- Invariant of the replay loop state: the working state and every
appended snapshot are well-formed, and the nickname dict only maps to
player indices 0 and 1. -/
def Reps.WF (rs : Reps) : Prop :=
  rs.state.WF ∧ (∀ n v, rs.nicknames n = some v → 0 ≤ v ∧ v < 2) ∧
  ∀ s ∈ rs.states, s.WF

lemma pyGetI_mem (l : List α) (i : Int) (x : α) (h : pyGetI l i = some x) : x ∈ l := by
  unfold pyGetI at h
  split at h
  · exact List.get?_mem h
  split at h
  · exact List.get?_mem h
  · exact absurd h (by simp)

lemma pySetI_shape (l l2 : List α) (i : Int) (v : α) (h : pySetI l i v = some l2) :
    ∃ k, l2 = l.set k v := by
  unfold pySetI at h
  split at h
  · split at h
    · injection h with h; exact ⟨_, h.symm⟩
    · exact absurd h (by simp)
  split at h
  · injection h with h; exact ⟨_, h.symm⟩
  · exact absurd h (by simp)

lemma mem_set_cases (l : List α) (k : ℕ) (v x : α) (h : x ∈ l.set k v) :
    x = v ∨ x ∈ l := by
  rcases List.mem_iff_get?.mp h with ⟨n, hn⟩
  by_cases hnk : n = k
  · subst hnk
    by_cases hlt : n < l.length
    · rw [get?_set_self _ _ _ hlt] at hn
      injection hn with hn
      exact Or.inl hn.symm
    · rw [List.get?_eq_getElem?, List.getElem?_eq_none (by simp; omega)] at hn
      exact absurd hn (by simp)
  · rw [get?_set_other _ _ _ _ (fun a => hnk a.symm)] at hn
    exact Or.inr (List.get?_mem hn)

lemma boardSet_dims (b b2 : List (List Cell)) (r c : Int) (v : Cell)
    (h : boardSet b r c v = some b2) (hd : dims15 b) : dims15 b2 := by
  unfold boardSet at h
  cases hrow : pyGetI b r with
  | none => rw [hrow] at h; exact absurd h (by simp)
  | some row =>
    rw [hrow] at h
    dsimp only at h
    cases hrow2 : pySetI row c v with
    | none => rw [hrow2] at h; exact absurd h (by simp)
    | some row2 =>
      rw [hrow2] at h
      obtain ⟨k, hk⟩ := pySetI_shape b b2 r row2 h
      have hrl : row.length = 15 := hd.2 row (pyGetI_mem b r row hrow)
      have hrl2 : row2.length = 15 := by rw [pySetI_length row row2 c v hrow2, hrl]
      constructor
      · rw [hk]; simp [hd.1]
      · intro row3 hmem
        rw [hk] at hmem
        rcases mem_set_cases b k row2 row3 hmem with h3 | h3
        · rw [h3]; exact hrl2
        · exact hd.2 row3 h3

lemma placeAux_dims : ∀ (w : List Char) (b b2 : List (List Cell)) (r c : Int) (hor : Bool),
    placeAux b w r c hor = some b2 → dims15 b → dims15 b2 := by
  intro w
  induction w with
  | nil =>
    intro b b2 r c hor h hd
    injection h with h
    rw [← h]; exact hd
  | cons ch rest ih =>
    intro b b2 r c hor h hd
    unfold placeAux at h
    dsimp only at h
    by_cases hch : ch ≠ '.'
    · rw [if_pos hch] at h
      cases hbs : boardSet b r c ⟨String.singleton ch, ch.isLower⟩ with
      | none => rw [hbs] at h; exact absurd h (by simp)
      | some b1 =>
        rw [hbs] at h
        dsimp only at h
        exact ih b1 b2 _ _ hor h (boardSet_dims b b1 r c _ hbs hd)
    · rw [if_neg hch] at h
      exact ih b b2 _ _ hor h hd

lemma removeAux_dims : ∀ (w : List Char) (b b2 : List (List Cell)) (r c : Int) (hor : Bool),
    removeAux b w r c hor = some b2 → dims15 b → dims15 b2 := by
  intro w
  induction w with
  | nil =>
    intro b b2 r c hor h hd
    injection h with h
    rw [← h]; exact hd
  | cons ch rest ih =>
    intro b b2 r c hor h hd
    unfold removeAux at h
    dsimp only at h
    by_cases hch : ch ≠ '.'
    · rw [if_pos hch] at h
      cases hbs : boardSet b r c emptyCell with
      | none => rw [hbs] at h; exact absurd h (by simp)
      | some b1 =>
        rw [hbs] at h
        dsimp only at h
        exact ih b1 b2 _ _ hor h (boardSet_dims b b1 r c _ hbs hd)
    · rw [if_neg hch] at h
      exact ih b b2 _ _ hor h hd

/-- The resolved player index of a move line is 0 or 1. -/
lemma pidx_range (rs : Reps) (pname : String) (hwf : Reps.WF rs) :
    0 ≤ (rs.nicknames pname).getD rs.state.on_turn ∧
    (rs.nicknames pname).getD rs.state.on_turn < 2 := by
  cases hn : rs.nicknames pname with
  | none => simpa [hn] using ⟨hwf.1.2.2.2.1, hwf.1.2.2.2.2.1⟩
  | some v => simpa [hn] using hwf.2.1 pname v hn

lemma Reps.snapWF (rs : Reps) (s : GameState) (pend : Option (Int × Int × Bool × String))
    (hwf : Reps.WF rs) (hs : s.WF) :
    Reps.WF { state := s
              nicknames := rs.nicknames
              states := rs.states ++ [s]
              pending := pend } := by
  refine ⟨hs, hwf.2.1, ?_⟩
  intro x hx
  rcases List.mem_append.mp hx with hx | hx
  · exact hwf.2.2 x hx
  · rw [List.mem_singleton.mp hx]; exact hs

lemma dictSet_range (d : String → Option Int) (k : String) (v : Int)
    (hd : ∀ n x, d n = some x → 0 ≤ x ∧ x < 2) (hv : 0 ≤ v ∧ v < 2) :
    ∀ n x, dictSet d k v n = some x → 0 ≤ x ∧ x < 2 := by
  intro n x h
  unfold dictSet at h
  split at h
  · injection h with h; rw [← h]; exact hv
  · exact hd n x h

/-- `stepMove` preserves the replay invariants. -/
lemma stepMove_WF (rs : Reps) (pname : String) (rest : List String) (rs' : Reps)
    (h : stepMove rs pname rest = some rs') (hwf : Reps.WF rs) : Reps.WF rs' := by
  rcases rest with _ | ⟨rack, _ | ⟨coord, _ | ⟨word, _ | ⟨score_str, tl⟩⟩⟩⟩
  · injection h with h; rw [← h]; exact hwf
  · injection h with h; rw [← h]; exact hwf
  · injection h with h; rw [← h]; exact hwf
  · injection h with h; rw [← h]; exact hwf
  have hpidx := pidx_range rs pname hwf
  unfold stepMove at h
  dsimp only at h
  split at h
  · exact absurd h (by simp)
  rename_i racks2 hracks
  have hrlen : racks2.length = 2 := by
    rw [pySetI_length _ _ _ _ hracks]; exact hwf.1.1
  split at h
  · exact absurd h (by simp)
  rename_i total htotal
  split at h
  · -- withdrawal
    unfold withdrawalMove at h
    split at h
    · exact absurd h (by simp)
    rename_i tW htW
    split at h
    · exact absurd h (by simp)
    rename_i scores2 hscores
    have hslen : scores2.length = 2 := by
      rw [pySetI_length _ _ _ _ hscores]; exact hwf.1.2.1
    split at h
    · rename_i pr pc ph pw hpend
      dsimp only at h
      split at h
      · exact absurd h (by simp)
      rename_i b2 hb2
      injection h with h
      rw [← h]
      refine Reps.snapWF rs _ _ hwf ?_
      exact ⟨hrlen, hslen, hwf.1.2.2.1, hwf.1.2.2.2.1,
        hwf.1.2.2.2.2.1, removeAux_dims pw.data _ _ pr pc ph hb2 hwf.1.2.2.2.2.2⟩
    · injection h with h
      rw [← h]
      refine Reps.snapWF rs _ _ hwf ?_
      exact ⟨hrlen, hslen, hwf.1.2.2.1, hwf.1.2.2.2.1,
        hwf.1.2.2.2.2.1, hwf.1.2.2.2.2.2⟩
  split at h
  · -- exchange
    unfold exchangeMove at h
    split at h
    · exact absurd h (by simp)
    rename_i scores2 hscores
    have hslen : scores2.length = 2 := by
      rw [pySetI_length _ _ _ _ hscores]; exact hwf.1.2.1
    injection h with h
    rw [← h]
    refine Reps.snapWF rs _ _ hwf ?_
    exact ⟨hrlen, hslen, hwf.1.2.2.1, by dsimp only; omega, by dsimp only; omega,
      hwf.1.2.2.2.2.2⟩
  split at h
  · exact absurd h (by simp)
  rename_i ev hev
  split at h
  · -- special event
    unfold eventMove at h
    split at h
    · exact absurd h (by simp)
    rename_i scores2 hscores
    have hslen : scores2.length = 2 := by
      rw [pySetI_length _ _ _ _ hscores]; exact hwf.1.2.1
    injection h with h
    rw [← h]
    refine Reps.snapWF rs _ _ hwf ?_
    exact ⟨hrlen, hslen, hwf.1.2.2.1, hwf.1.2.2.2.1, hwf.1.2.2.2.2.1, hwf.1.2.2.2.2.2⟩
  split at h
  · -- end-of-game adjustment
    unfold adjustMove at h
    split at h
    · exact absurd h (by simp)
    rename_i scores2 hscores
    have hslen : scores2.length = 2 := by
      rw [pySetI_length _ _ _ _ hscores]; exact hwf.1.2.1
    injection h with h
    rw [← h]
    refine Reps.snapWF rs _ _ hwf ?_
    exact ⟨hrlen, hslen, hwf.1.2.2.1, hwf.1.2.2.2.1, hwf.1.2.2.2.2.1, hwf.1.2.2.2.2.2⟩
  split at h
  · -- pass
    unfold passMove at h
    split at h
    · exact absurd h (by simp)
    rename_i scores2 hscores
    have hslen : scores2.length = 2 := by
      rw [pySetI_length _ _ _ _ hscores]; exact hwf.1.2.1
    injection h with h
    rw [← h]
    refine Reps.snapWF rs _ _ hwf ?_
    exact ⟨hrlen, hslen, hwf.1.2.2.1, by dsimp only; omega, by dsimp only; omega,
      hwf.1.2.2.2.2.2⟩
  all_goals
    unfold placeMove at h
    split at h
    · exact absurd h (by simp)
    rename_i b2 hb2
    split at h
    · exact absurd h (by simp)
    rename_i scores2 hscores
    have hslen : scores2.length = 2 := by
      rw [pySetI_length _ _ _ _ hscores]; exact hwf.1.2.1
    injection h with h
    rw [← h]
    refine Reps.snapWF rs _ _ hwf ?_
    exact ⟨hrlen, hslen, hwf.1.2.2.1, by dsimp only; omega, by dsimp only; omega,
      placeAux_dims word.data _ _ _ _ _ hb2 hwf.1.2.2.2.2.2⟩

/-- `stepLine` preserves the replay invariants. -/
lemma stepLine_WF (rs : Reps) (raw : String) (rs' : Reps)
    (h : stepLine rs raw = some rs') (hwf : Reps.WF rs) : Reps.WF rs' := by
  unfold stepLine at h
  dsimp only at h
  split at h
  · split at h
    · exact absurd h (by simp)
    · injection h with h
      rw [← h]
      exact ⟨⟨hwf.1.1, hwf.1.2.1, hwf.1.2.2.1, hwf.1.2.2.2.1, hwf.1.2.2.2.2.1,
        hwf.1.2.2.2.2.2⟩, hwf.2.1, hwf.2.2⟩
  split at h
  · split at h
    · split at h
      · exact absurd h (by simp)
      · injection h with h
        rw [← h]
        exact ⟨⟨hwf.1.1, hwf.1.2.1, hwf.1.2.2.1, hwf.1.2.2.2.1, hwf.1.2.2.2.2.1,
          hwf.1.2.2.2.2.2⟩, hwf.2.1, hwf.2.2⟩
    · injection h with h
      rw [← h]
      exact hwf
  split at h
  · split at h
    · exact absurd h (by simp)
    rename_i players2 hps
    injection h with h
    rw [← h]
    refine ⟨⟨hwf.1.1, hwf.1.2.1, ?_, hwf.1.2.2.2.1, hwf.1.2.2.2.2.1,
      hwf.1.2.2.2.2.2⟩, ?_, hwf.2.2⟩
    · rw [pySetI_length _ _ _ _ hps]; exact hwf.1.2.2.1
    · exact dictSet_range _ _ _ (dictSet_range _ _ _ hwf.2.1 (by omega)) (by omega)
  split at h
  · split at h
    · exact absurd h (by simp)
    rename_i players2 hps
    injection h with h
    rw [← h]
    refine ⟨⟨hwf.1.1, hwf.1.2.1, ?_, hwf.1.2.2.2.1, hwf.1.2.2.2.2.1,
      hwf.1.2.2.2.2.2⟩, ?_, hwf.2.2⟩
    · rw [pySetI_length _ _ _ _ hps]; exact hwf.1.2.2.1
    · exact dictSet_range _ _ _ (dictSet_range _ _ _ hwf.2.1 (by omega)) (by omega)
  split at h
  · injection h with h
    rw [← h]
    exact hwf
  split at h
  · exact absurd h (by simp)
  split at h
  · injection h with h
    rw [← h]
    exact hwf
  · exact stepMove_WF _ _ _ _ h hwf

/-- The initial replay state satisfies the invariants. -/
lemma initReps_WF : Reps.WF initReps := by
  refine ⟨⟨rfl, rfl, rfl, by decide, by decide, by decide⟩, ?_, ?_⟩
  · intro n v h
    exact absurd h (by simp [initReps])
  · intro s hs
    rw [List.mem_singleton.mp hs]
    exact ⟨rfl, rfl, rfl, by decide, by decide, by decide⟩

/-- Every snapshot returned by `parse_gcg` is well-formed. -/
lemma parse_gcg_WF (t : String) (states : List GameState)
    (h : parse_gcg t = some states) : ∀ s ∈ states, s.WF := by
  unfold parse_gcg at h
  have hfold : ∀ (ls : List String) (rs rsf : Reps), Reps.WF rs →
      ls.foldlM stepLine rs = some rsf → Reps.WF rsf := by
    intro ls
    induction ls with
    | nil =>
      intro rs rsf hwf hf
      injection hf with hf
      rw [← hf]; exact hwf
    | cons L rest ih =>
      intro rs rsf hwf hf
      rw [List.foldlM_cons] at hf
      cases hl : stepLine rs L with
      | none => rw [hl] at hf; exact absurd hf (by simp)
      | some rs1 =>
        rw [hl] at hf
        simp only [Option.bind_eq_bind, Option.some_bind] at hf
        exact ih rs1 rsf (stepLine_WF rs L rs1 hl hwf) hf
  cases hf : (linesOf t).foldlM stepLine initReps with
  | none => rw [hf] at h; exact absurd h (by simp)
  | some rsf =>
    rw [hf] at h
    simp only [Option.map_some'] at h
    injection h with h
    rw [← h]
    exact (hfold (linesOf t) initReps rsf initReps_WF hf).2.2

/-! ## Claim C8 — threshold acceptance and exception-freedom of the search -/

/-- Tokenizing with a nonempty current token always yields at least one
token. -/
lemma tokensAcc_acc_ne_nil : ∀ (cs : List Char) (a : Char) (acc : List Char),
    tokensAcc cs (a :: acc) ≠ [] := by
  intro cs
  induction cs with
  | nil =>
    intro a acc
    unfold tokensAcc
    simp
  | cons c rest ih =>
    intro a acc
    unfold tokensAcc
    split
    · simp
    · exact ih c (a :: acc)

/-- A character list holding at least one non-whitespace character
tokenizes to a nonempty token list. -/
lemma tokensAcc_ne_nil : ∀ (cs : List Char), (∃ c ∈ cs, isWs c = false) →
    tokensAcc cs [] ≠ [] := by
  intro cs
  induction cs with
  | nil => intro h; exact absurd h (by simp)
  | cons c rest ih =>
    intro h
    unfold tokensAcc
    by_cases hw : isWs c = true
    · rw [if_pos hw]
      show tokensAcc rest [] ≠ []
      apply ih
      rcases h with ⟨x, hx, hxw⟩
      rcases List.mem_cons.mp hx with h1 | h1
      · rw [h1, hw] at hxw; exact absurd hxw (by simp)
      · exact ⟨x, h1, hxw⟩
    · rw [if_neg hw]
      exact tokensAcc_acc_ne_nil rest c []

/-- `s.split()` is nonempty whenever `s` holds a non-whitespace character. -/
lemma pySplit_ne_nil (s : String) (c : Char) (hc : c ∈ s.data) (hw : isWs c = false) :
    pySplit s ≠ [] := by
  unfold pySplit
  cases htk : tokensAcc s.data [] with
  | nil => exact absurd htk (tokensAcc_ne_nil s.data ⟨c, hc, hw⟩)
  | cons a as => simp

/-- A string ending in `;` splits to a nonempty token list. -/
lemma pySplit_semi_ne_nil (a : String) : pySplit (a ++ (";")) ≠ [] := by
  refine pySplit_ne_nil (a ++ (";")) ';' ?_ rfl
  rw [String.data_append]
  exact List.mem_append.mpr (Or.inr (by simp))

lemma pyGetI_total (l : List α) (n : ℕ) (h : n < l.length) :
    ∃ x, pyGetI l (n : Int) = some x := by
  rw [pyGetI_nonneg l (n : Int) (Int.natCast_nonneg n), Int.toNat_natCast]
  exact ⟨l.get ⟨n, h⟩, List.get?_eq_get h⟩

lemma pyGetI_int_total (l : List α) (i : Int) (h0 : 0 ≤ i) (h : i.toNat < l.length) :
    ∃ x, pyGetI l i = some x := by
  rw [pyGetI_nonneg l i h0]
  exact ⟨l.get ⟨i.toNat, h⟩, List.get?_eq_get h⟩

/-- A fallible fold whose body succeeds on every list element succeeds. -/
lemma foldlM_option_total {α β : Type} (f : β → α → Option β) (l : List α)
    (h : ∀ b a, a ∈ l → ∃ b2, f b a = some b2) :
    ∀ b, ∃ b2, l.foldlM f b = some b2 := by
  induction l with
  | nil => intro b; exact ⟨b, rfl⟩
  | cons a rest ih =>
    intro b
    obtain ⟨b1, hb1⟩ := h b a (List.mem_cons_self a rest)
    obtain ⟨b2, hb2⟩ := ih (fun b' a' ha' => h b' a' (List.mem_cons_of_mem a ha')) b1
    refine ⟨b2, ?_⟩
    rw [List.foldlM_cons, hb1]
    simpa using hb2

/-- Serializing a 15-cell row never raises. -/
lemma cgpRow_total (row : List Cell) (hl : row.length = 15) : ∃ s, cgpRow row = some s := by
  obtain ⟨p, hp⟩ := foldlM_option_total
    (fun (p : String × ℕ) (c : ℕ) => do
      let cell ← pyGetI row (c : Int)
      pure (cgpRowStep p cell))
    (List.range 15)
    (by
      intro b a ha
      obtain ⟨cell, hcell⟩ := pyGetI_total row a (by rw [hl]; exact List.mem_range.mp ha)
      exact ⟨cgpRowStep b cell, by dsimp only; rw [hcell]; rfl⟩)
    (("" : String), 0)
  unfold cgpRow
  rw [hp]
  exact ⟨_, rfl⟩

/-- `to_cgp` never raises on a well-formed state, and its output ends in
`;`, hence survives `cgp.split()[0]`. -/
lemma to_cgp_total (gs : GameState) (hwf : gs.WF) :
    ∃ cgp, to_cgp gs = some cgp ∧ pySplit cgp ≠ [] := by
  have hb15 : gs.board.length = 15 := hwf.2.2.2.2.2.1
  obtain ⟨rows, hrows⟩ := foldlM_option_total
    (fun (acc : List String) (r : ℕ) => do
      let row ← pyGetI gs.board (r : Int)
      let s ← cgpRow row
      pure (acc ++ [s]))
    (List.range 15)
    (by
      intro b a ha
      obtain ⟨row, hrow⟩ := pyGetI_total gs.board a (by rw [hb15]; exact List.mem_range.mp ha)
      obtain ⟨s, hs⟩ := cgpRow_total row
        (hwf.2.2.2.2.2.2 row (pyGetI_mem gs.board (a : Int) row hrow))
      refine ⟨b ++ [s], ?_⟩
      dsimp only
      rw [hrow]
      simp only [Option.bind_eq_bind, Option.some_bind]
      rw [hs]
      rfl)
    []
  have htn : gs.on_turn.toNat < gs.racks.length := by
    have h0 := hwf.2.2.2.1
    have h2 := hwf.2.2.2.2.1
    rw [hwf.1]
    omega
  obtain ⟨rk, hrk⟩ := pyGetI_int_total gs.racks gs.on_turn hwf.2.2.2.1 htn
  rcases hsc : gs.scores with _ | ⟨s0, _ | ⟨s1, _ | ⟨s2, tl3⟩⟩⟩
  · have h2 := hwf.2.1; rw [hsc] at h2; simp at h2
  · have h2 := hwf.2.1; rw [hsc] at h2; simp at h2
  case cons.cons.cons =>
    have h2 := hwf.2.1; rw [hsc] at h2; simp at h2
  have hcgp : ∃ cgp, to_cgp gs = some cgp ∧ ∃ a : String, cgp = a ++ (";") := by
    unfold to_cgp
    rw [hrows]
    simp only [Option.bind_eq_bind, Option.some_bind]
    rw [hrk]
    simp only [Option.some_bind]
    rw [hsc]
    exact ⟨_, rfl, _, rfl⟩
  obtain ⟨cgp, hc1, a, ha⟩ := hcgp
  refine ⟨cgp, hc1, ?_⟩
  rw [ha]
  exact pySplit_semi_ne_nil a

/-- `board_occupancy` succeeds whenever the CGP splits to at least one
token. -/
lemma board_occupancy_total (cgp : String) (h : pySplit cgp ≠ []) :
    ∃ occ, board_occupancy cgp = some occ := by
  unfold board_occupancy
  cases hsp : pySplit cgp with
  | nil => exact absurd hsp h
  | cons b rest => exact ⟨_, rfl⟩

/-- `board_letters` succeeds whenever the CGP splits to at least one
token. -/
lemma board_letters_total (cgp : String) (h : pySplit cgp ≠ []) :
    ∃ lt, board_letters cgp = some lt := by
  unfold board_letters
  cases hsp : pySplit cgp with
  | nil => exact absurd hsp h
  | cons b rest => exact ⟨_, rfl⟩

/-- `occupancy_similarity` never raises on nonblank inputs. -/
lemma occupancy_similarity_total (a b : String) (ha : pySplit a ≠ []) (hb : pySplit b ≠ []) :
    ∃ q, occupancy_similarity a b = some q := by
  obtain ⟨oa, hoa⟩ := board_occupancy_total a ha
  obtain ⟨ob, hob⟩ := board_occupancy_total b hb
  unfold occupancy_similarity
  rw [hoa]
  simp only [Option.bind_eq_bind, Option.some_bind]
  rw [hob]
  simp only [Option.some_bind]
  split
  · exact ⟨_, rfl⟩
  · exact ⟨_, rfl⟩

/-- `letter_accuracy` never raises on nonblank inputs. -/
lemma letter_accuracy_total (a b : String) (ha : pySplit a ≠ []) (hb : pySplit b ≠ []) :
    ∃ q, letter_accuracy a b = some q := by
  obtain ⟨oa, hoa⟩ := board_occupancy_total a ha
  obtain ⟨ob, hob⟩ := board_occupancy_total b hb
  obtain ⟨la, hla⟩ := board_letters_total a ha
  obtain ⟨lb, hlb⟩ := board_letters_total b hb
  unfold letter_accuracy
  rw [hoa]
  simp only [Option.bind_eq_bind, Option.some_bind]
  rw [hob]
  simp only [Option.some_bind]
  split
  · exact ⟨_, rfl⟩
  · rw [hla]
    simp only [Option.some_bind]
    rw [hlb]
    simp only [Option.some_bind]
    exact ⟨_, rfl⟩

/-- The loop body of `find_matching_turn` never raises on a well-formed
snapshot, and any snapshot it stores in the running best is well-formed. -/
lemma scoreState_total_inv (ocr : String) (scores : Option (Int × Int)) (tol : ℚ)
    (best : ℕ × ℚ × Option GameState) (ist : ℕ × GameState)
    (hocr : pySplit ocr ≠ []) (hist : ist.2.WF)
    (hb : ∀ st, best.2.2 = some st → st.WF) :
    ∃ r, scoreState ocr scores tol best ist = some r ∧ ∀ st, r.2.2 = some st → st.WF := by
  obtain ⟨cgp, hcgp, hsp⟩ := to_cgp_total ist.2 hist
  obtain ⟨occ, hocc⟩ := occupancy_similarity_total ocr cgp hocr hsp
  unfold scoreState
  rw [hcgp]
  simp only [Option.bind_eq_bind, Option.some_bind]
  rw [hocc]
  simp only [Option.some_bind]
  split
  · exact ⟨best, rfl, hb⟩
  · obtain ⟨acc, hacc⟩ := letter_accuracy_total ocr cgp hocr hsp
    rw [hacc]
    simp only [Option.some_bind]
    refine ⟨_, rfl, ?_⟩
    intro st hst
    split at hst
    · dsimp only at hst
      injection hst with hst
      rw [← hst]
      exact hist
    · exact hb st hst

/-- Every element of an enumeration came from the underlying list. -/
lemma enumFrom_snd_mem : ∀ (n : ℕ) (l : List α) (p : ℕ × α),
    p ∈ List.enumFrom n l → p.2 ∈ l := by
  intro n l
  induction l generalizing n with
  | nil => intro p hp; exact absurd hp (by simp)
  | cons a rest ih =>
    intro p hp
    rcases List.mem_cons.mp (by simpa [List.enumFrom] using hp) with h | h
    · rw [h]; exact List.mem_cons_self a rest
    · exact List.mem_cons_of_mem a (ih (n + 1) p h)

/-- The scoring fold of `find_matching_turn` never raises when every listed
snapshot is well-formed, and the best snapshot it carries stays
well-formed. -/
lemma fmt_fold_total (ocr : String) (scores : Option (Int × Int)) (tol : ℚ)
    (hocr : pySplit ocr ≠ []) :
    ∀ (l : List (ℕ × GameState)), (∀ p ∈ l, (p : ℕ × GameState).2.WF) →
    ∀ best : ℕ × ℚ × Option GameState, (∀ st, best.2.2 = some st → st.WF) →
    ∃ r, l.foldlM (scoreState ocr scores tol) best = some r ∧
      ∀ st, r.2.2 = some st → st.WF := by
  intro l
  induction l with
  | nil => intro _ best hb; exact ⟨best, rfl, hb⟩
  | cons p rest ih =>
    intro hl best hb
    obtain ⟨r1, hr1, hr1wf⟩ := scoreState_total_inv ocr scores tol best p hocr
      (hl p (List.mem_cons_self p rest)) hb
    obtain ⟨r2, hr2, hr2wf⟩ := ih (fun q hq => hl q (List.mem_cons_of_mem p hq)) r1 hr1wf
    refine ⟨r2, ?_, hr2wf⟩
    rw [List.foldlM_cons, hr1]
    simpa using hr2

/-- `find_matching_turn` never raises when every snapshot is well-formed,
and a returned best state is well-formed. -/
lemma find_matching_turn_total (ocr : String) (states : List GameState)
    (scores : Option (Int × Int)) (tol : ℚ)
    (hocr : pySplit ocr ≠ []) (hwf : ∀ s ∈ states, s.WF) :
    ∃ r, find_matching_turn ocr states scores tol = some r ∧
      ∀ st, r.2.2 = some st → st.WF := by
  unfold find_matching_turn
  refine fmt_fold_total ocr scores tol hocr (List.enumFrom 1 (states.drop 1)) ?_
    (0, 0, none) ?_
  · intro p hp
    exact hwf p.2 (List.mem_of_mem_drop (enumFrom_snd_mem 1 (states.drop 1) p hp))
  · intro st hst
    exact absurd hst (by simp)

/-- The candidate loop of `match_screenshot` never raises (given a
nonblank OCR string), and any best match it carries records exactly the
best similarity. -/
lemma matchLoop_total (ocr : String) (scores : Option (Int × Int))
    (hocr : pySplit ocr ≠ []) :
    ∀ (cands : List (String × String)) (bm : Option MatchResult) (bs : ℚ),
    (∀ m, bm = some m → m.similarity = bs) →
    ∃ bm2 bs2, matchLoop ocr scores cands (bm, bs) = some (bm2, bs2) ∧
      ∀ m, bm2 = some m → m.similarity = bs2 := by
  intro cands
  induction cands with
  | nil =>
    intro bm bs hinv
    exact ⟨bm, bs, rfl, hinv⟩
  | cons cand rest ih =>
    obtain ⟨gid, txt⟩ := cand
    intro bm bs hinv
    rw [matchLoop_cons]
    cases hp : parse_gcg txt with
    | none =>
      dsimp only
      exact ih bm bs hinv
    | some states =>
      dsimp only
      obtain ⟨⟨ti, sim, stOpt⟩, hfmt, hstwf⟩ := find_matching_turn_total ocr states scores 5
        hocr (parse_gcg_WF txt states hp)
      rw [hfmt]
      dsimp only
      by_cases hlt : bs < sim
      · rw [if_pos hlt]
        cases stOpt with
        | none =>
          dsimp only
          by_cases h98 : (0.98 : ℚ) ≤ sim
          · rw [if_pos h98]
            refine ⟨_, _, rfl, ?_⟩
            intro m hm
            injection hm with hm
            rw [← hm]
          · rw [if_neg h98]
            refine ih _ _ ?_
            intro m hm
            injection hm with hm
            rw [← hm]
        | some st =>
          obtain ⟨cgp, hcgp, _⟩ := to_cgp_total st (hstwf st rfl)
          dsimp only
          rw [hcgp]
          simp only [Option.map_some']
          by_cases h98 : (0.98 : ℚ) ≤ sim
          · rw [if_pos h98]
            refine ⟨_, _, rfl, ?_⟩
            intro m hm
            injection hm with hm
            rw [← hm]
          · rw [if_neg h98]
            refine ih _ _ ?_
            intro m hm
            injection hm with hm
            rw [← hm]
      · rw [if_neg hlt]
        exact ih bm bs hinv

/-- C8 counterexample: the exception-freedom is NOT unconditional.  On a
blank observed record (whitespace-only, so `cgp.split()` is empty) and a
candidate whose replay has at least one move, `board_occupancy` raises an
uncaught `IndexError` at `cgp.split()[0]` inside the similarity scorer,
which sits outside every `try` block of `match_screenshot`: the embedded
result is the escaped-exception value `none`, not the explicit no-match
outcome `some none`. -/
theorem c8_counterexample :
    match_screenshot ("") [(("g"), (">a: AB 8H AB +2 2"))] = none := rfl

/-- C8: on any nonblank OCR record and any candidate set,
`match_screenshot` completes without raising an exception (the search
always reaches its final accept/reject decision), and it returns a match
result only when that result's similarity — the best combined score found
across all candidates — is at least the caller-supplied minimum
similarity; otherwise the returned value is the explicit no-match outcome.
-/
theorem c8_threshold_no_exception (ocr : String) (cands : List (String × String))
    (scores : Option (Int × Int)) (min_sim : ℚ) (hocr : pySplit ocr ≠ []) :
    (∃ res, match_screenshot ocr cands scores min_sim = some res) ∧
    (∀ m, match_screenshot ocr cands scores min_sim = some (some m) →
      min_sim ≤ m.similarity) := by
  obtain ⟨bm2, bs2, hml, hinv⟩ := matchLoop_total ocr scores hocr cands none 0
    (by intro m hm; exact absurd hm (by simp))
  have hms : match_screenshot ocr cands scores min_sim =
      some (if bm2.isSome && decide (min_sim ≤ bs2) then bm2 else none) := by
    unfold match_screenshot
    rw [hml]
    rfl
  refine ⟨⟨_, hms⟩, ?_⟩
  intro m hm
  rw [hms] at hm
  injection hm with hm
  split at hm
  · rename_i hcond
    rw [Bool.and_eq_true] at hcond
    rw [hinv m hm]
    exact of_decide_eq_true hcond.2
  · exact absurd hm (by simp)

/-- Witness for `c8_threshold_no_exception`: the nonblank OCR string `x`
with an empty candidate set. -/
theorem c8_witness :
    pySplit ("x") ≠ [] ∧
    ((∃ res, match_screenshot ("x") [] none (0.85 : ℚ) = some res) ∧
     (∀ m, match_screenshot ("x") [] none (0.85 : ℚ) = some (some m) →
       (0.85 : ℚ) ≤ m.similarity)) :=
  ⟨by decide, c8_threshold_no_exception ("x") [] none (0.85 : ℚ) (by decide)⟩

end Cgpbot
